import Mathlib

/-!
Verification of the dependency-ordered API resolver
(`packages/backend-common/src/context/ApiResolver.ts`).

The embedding models the runtime content of the TypeScript code:
* `ApiRef` is, at runtime, just its `id` string (the `T` field is a phantom).
* `ApiFactory` is the triple `(api, deps, factory)`; the dependency map is an
  ordered association list of local names to references, and the construction
  function receives the same association list with each reference replaced by
  the value looked up in the registry (mirroring `mapValues`).
* The registry (a JS `Map`) is an association list with insertion-order
  semantics: `set` updates the first entry with the key in place, otherwise
  appends at the end; `get` returns the first match; `has` tests key presence.
* `with` is modelled by `withRun`: it copies the receiver's map, builds the
  instantiation queue by the depth-first placement of the source
  (`enqueueDepthFirst`), and then instantiates the queue in order.  The
  general recursion of `enqueueDepthFirst` is embedded with an explicit fuel
  parameter; `withRun` supplies `factories.length + 1` fuel, and we prove that
  this fuel is never exhausted, so the `fuelExhausted` outcome is a pure
  modelling artefact that the function never returns.
* Exceptions become the `Except` result; the three thrown errors are the three
  constructors of `ResolverError`, each carrying the exact message string the
  source builds (`Array.join(' -> ')` is embedded as `joinArrow`).
-/

namespace Backstage

/-- Runtime content of an `ApiRef<T>` from `types.ts`: only the `id` string
exists at runtime inside the resolver algorithm. -/
structure ApiRef where
  id : String
deriving DecidableEq, Repr

/-- An `ApiRef<T>` together with its payload field `T`, used to state that
`resolve` is keyed solely by the `id` and ignores the payload. -/
structure ApiRefT (α : Type) where
  id : String
  T : α

/-- An `AnyApiFactory` from `types.ts`: the produced reference, the ordered
dependency map (local name to reference), and the construction function, which
receives the dependency map with references replaced by looked-up values. -/
structure ApiFactory (V : Type) where
  api : ApiRef
  deps : List (String × ApiRef)
  factory : List (String × Option V) → V

/-- The registry backing an `ApiResolver`: a JS `Map<string, unknown>` as an
association list in insertion order. -/
abbrev Registry (V : Type) := List (String × V)

/-- `Map.get`: the value of the entry with the key, if any (keys are unique in
a JS `Map`; on a raw association list this is the first match). -/
def Registry.get (m : Registry V) (k : String) : Option V :=
  match m with
  | [] => none
  | e :: rest => if e.1 == k then some e.2 else Registry.get rest k

/-- `Map.has`: whether an entry with the key exists. -/
def Registry.has (m : Registry V) (k : String) : Bool :=
  (Registry.get m k).isSome

/-- `Map.set`: update the first entry with the key in place, preserving
insertion order, or append a new entry at the end. -/
def Registry.set (m : Registry V) (k : String) (v : V) : Registry V :=
  match m with
  | [] => [(k, v)]
  | e :: rest => if e.1 == k then (k, v) :: rest else e :: Registry.set rest k v

/-- The three exceptions thrown by `ApiResolver.with`, plus the fuel artefact
of the embedding (proved unreachable in `withF_ne_fuelExhausted`). -/
inductive ResolverError where
  | circular (msg : String)
  | missing (msg : String)
  | duplicate (msg : String)
  | fuelExhausted
deriving DecidableEq, Repr

/-- `Array.prototype.join(' -> ')` on the `seen` path. -/
def joinArrow : List String → String
  | [] => ""
  | [s] => s
  | s :: rest => s ++ " -> " ++ joinArrow rest

/-- The position of `factories.find(f => f.api.id === depRef.id)`: the index of
the first factory in the batch whose produced id matches, if any. -/
def findProducer (id : String) : List (ApiFactory V) → Option Nat
  | [] => none
  | f :: rest =>
    if f.api.id == id then some 0 else (findProducer id rest).map (· + 1)

/-- The `for (const depRef of Object.values(factory.deps))` loop of
`enqueueDepthFirst`: cycle check against `seen`, skip if the copied registry
already has the id, otherwise find the producing factory in the batch (first
match, as `Array.find`) and place it recursively.  The recursive placement is
abstracted as the argument `recur`, which `enqueueDepthFirst` instantiates
with itself at the decremented fuel. -/
def processDeps (apis : Registry V) (factories : List (ApiFactory V))
    (recur : Nat → List String → List Nat → Except ResolverError (List Nat)) :
    List (String × ApiRef) → List String → List Nat →
    Except ResolverError (List Nat)
  | [], _, queue => .ok queue
  | (_, depRef) :: rest, seen, queue =>
    if depRef.id ∈ seen then
      .error (.circular
        ("Circular API dependencies: " ++ joinArrow seen ++ " -> " ++ depRef.id))
    else if apis.has depRef.id then
      processDeps apis factories recur rest seen queue
    else
      match findProducer depRef.id factories with
      | none =>
        .error (.missing
          ("Could not resolve API dependency in chain, " ++ joinArrow seen ++
            " -> " ++ depRef.id))
      | some j =>
        match recur j (seen ++ [depRef.id]) queue with
        | .error e => .error e
        | .ok queue2 => processDeps apis factories recur rest seen queue2

/-- The inner `enqueueDepthFirst(factory, seen)` of `ApiResolver.with`,
operating on the index `i` of the factory in the batch (JS object identity of
batch elements corresponds to their position).  `apis` is the copied registry,
which is not written to before instantiation, `queue` is the accumulated
instantiation order.  The fuel argument makes the general recursion of the
source structural; it is decremented on each nested placement. -/
def enqueueDepthFirst (apis : Registry V) (factories : List (ApiFactory V)) :
    Nat → Nat → List String → List Nat → Except ResolverError (List Nat)
  | 0, _, _, _ => .error .fuelExhausted
  | fuel + 1, i, seen, queue =>
    match factories[i]? with
    | none => .error .fuelExhausted
    | some factory =>
      match processDeps apis factories (enqueueDepthFirst apis factories fuel)
          factory.deps seen queue with
      | .error e => .error e
      | .ok queue1 => .ok (if i ∈ queue1 then queue1 else queue1 ++ [i])

/-- The `for (const factory of factories)` loop of `with`: per batch element,
the duplicate-registration check against the copied registry, then the
depth-first placement starting from `seen = [factory.api.id]`. -/
def buildQueue (apis : Registry V) (factories : List (ApiFactory V)) (fuel : Nat) :
    List Nat → List Nat → Except ResolverError (List Nat)
  | [], queue => .ok queue
  | i :: rest, queue =>
    match factories[i]? with
    | none => .error .fuelExhausted
    | some factory =>
      if apis.has factory.api.id then
        .error (.duplicate ("API " ++ factory.api.id ++ " was already registered"))
      else
        match enqueueDepthFirst apis factories fuel i [factory.api.id] queue with
        | .error e => .error e
        | .ok queue1 => buildQueue apis factories fuel rest queue1

/-- The dependency-value mapping `mapValues(factory.deps, ref => apis.get(ref.id))`
followed by the call of the construction function. -/
def applyFactory (f : ApiFactory V) (apis : Registry V) : V :=
  f.factory (f.deps.map (fun d => (d.1, apis.get d.2.id)))

/-- One step of the final instantiation loop:
`apis.set(factory.api.id, factory.factory(dependencies))`. -/
def instStepReg (factories : List (ApiFactory V)) (acc : Registry V) (i : Nat) :
    Registry V :=
  match factories[i]? with
  | none => acc
  | some factory => Registry.set acc factory.api.id (applyFactory factory acc)

/-- The final instantiation loop of `with`: `for (const factory of queue)`,
setting each produced id to the constructed value in queue order. -/
def instantiate (factories : List (ApiFactory V)) (queue : List Nat)
    (apis : Registry V) : Registry V :=
  queue.foldl (instStepReg factories) apis

/-- The mutable state visible during a `with` call: the receiver's backing map
(`this.apis`) and the local copy (`const apis = new Map(this.apis)`).  Every
write of the source targets the copy. -/
structure WithState (V : Type) where
  receiver : Registry V
  copy : Registry V

/-- One instantiation step acting on the call state: `apis.set(...)` writes the
copy, the receiver cell is not an operand of any write. -/
def instStep (factories : List (ApiFactory V)) (st : WithState V) (i : Nat) :
    WithState V :=
  match factories[i]? with
  | none => st
  | some factory =>
    { st with copy := st.copy.set factory.api.id (applyFactory factory st.copy) }

/-- `ApiResolver.with(factories)` as a state transformer: returns the result
(the new resolver's registry, or the thrown error) together with the
receiver's registry as observable after the call. -/
def withRun (base : Registry V) (factories : List (ApiFactory V)) :
    Except ResolverError (Registry V) × Registry V :=
  let st0 : WithState V := ⟨base, base⟩
  match buildQueue st0.copy factories (factories.length + 1)
      (List.range factories.length) [] with
  | .error e => (.error e, st0.receiver)
  | .ok queue =>
    let st1 := queue.foldl (instStep factories) st0
    (.ok st1.copy, st1.receiver)

/-- The result of `ApiResolver.with(factories)`: the new registry on success,
the thrown error on failure. -/
def withF (base : Registry V) (factories : List (ApiFactory V)) :
    Except ResolverError (Registry V) :=
  (withRun base factories).1

/-- `ApiResolver.empty()`: a resolver holding no APIs. -/
def emptyResolver : Registry V := []

/-- `ApiResolver.resolve<T>(ref)`: keyed by `ref.id` only. -/
def resolveApi (m : Registry V) (ref : ApiRefT α) : Option V :=
  m.get ref.id

/-! ### Basic registry lemmas -/

theorem Registry.get_nil (k : String) : Registry.get ([] : Registry V) k = none :=
  rfl

theorem Registry.get_cons (e : String × V) (m : Registry V) (k : String) :
    Registry.get (e :: m) k = if e.1 = k then some e.2 else Registry.get m k := by
  simp [Registry.get]

theorem Registry.has_eq_isSome (m : Registry V) (k : String) :
    Registry.has m k = (Registry.get m k).isSome := rfl

theorem Registry.get_set_self (m : Registry V) (k : String) (v : V) :
    Registry.get (Registry.set m k v) k = some v := by
  induction m with
  | nil => simp [Registry.set, Registry.get]
  | cons e rest ih =>
    by_cases h : e.1 = k <;> simp [Registry.set, Registry.get, h, ih]

theorem Registry.get_set_ne (m : Registry V) (k k' : String) (v : V)
    (h : k' ≠ k) : Registry.get (Registry.set m k v) k' = Registry.get m k' := by
  induction m with
  | nil => simp [Registry.set, Registry.get, Ne.symm h]
  | cons e rest ih =>
    by_cases he : e.1 = k
    · subst he
      have h1 : e.1 ≠ k' := fun hk => h hk.symm
      simp [Registry.set, Registry.get, h1, ih]
    · by_cases hk : e.1 = k' <;>
        simp [Registry.set, Registry.get, he, hk, h, ih]

theorem Registry.has_set (m : Registry V) (k k' : String) (v : V) :
    Registry.has (Registry.set m k v) k' = (Registry.has m k' || k' == k) := by
  by_cases h : k' = k
  · subst h
    simp [Registry.has_eq_isSome, Registry.get_set_self]
  · simp [Registry.has_eq_isSome, Registry.get_set_ne m k k' v h, h]

theorem Registry.length_set_le (m : Registry V) (k : String) (v : V) :
    m.length ≤ (Registry.set m k v).length := by
  induction m with
  | nil => simp [Registry.set]
  | cons e rest ih =>
    by_cases h : e.1 = k
    · simp [Registry.set, h]
    · simp only [Registry.set, beq_iff_eq, h, if_false, List.length_cons]
      omega

theorem Registry.length_set_of_not_has (m : Registry V) (k : String) (v : V)
    (h : Registry.has m k = false) :
    (Registry.set m k v).length = m.length + 1 := by
  induction m with
  | nil => simp [Registry.set]
  | cons e rest ih =>
    rw [Registry.has_eq_isSome, Registry.get_cons] at h
    by_cases hk : e.1 = k
    · simp [hk] at h
    · simp only [hk, if_false] at h
      simp [Registry.set, hk, ih (by rw [Registry.has_eq_isSome]; exact h)]

theorem Registry.get_of_has_false (m : Registry V) (k : String)
    (h : Registry.has m k = false) : Registry.get m k = none := by
  rw [Registry.has_eq_isSome] at h
  exact Option.not_isSome_iff_eq_none.mp (by simp [h])

/-! ### Lemmas about `findProducer` -/

theorem findProducer_eq_some {factories : List (ApiFactory V)} {id : String}
    {j : Nat} (h : findProducer id factories = some j) :
    ∃ f, factories[j]? = some f ∧ f.api.id = id := by
  induction factories generalizing j with
  | nil => simp [findProducer] at h
  | cons g rest ih =>
    by_cases hg : g.api.id = id
    · simp [findProducer, hg] at h
      subst h
      exact ⟨g, by simp, hg⟩
    · simp only [findProducer, beq_iff_eq, hg, if_false, Option.map_eq_some'] at h
      obtain ⟨j', hj', rfl⟩ := h
      obtain ⟨f, hf, hid⟩ := ih hj'
      exact ⟨f, by simpa using hf, hid⟩

theorem findProducer_eq_none {factories : List (ApiFactory V)} {id : String}
    (h : findProducer id factories = none) :
    ∀ f ∈ factories, f.api.id ≠ id := by
  induction factories with
  | nil => simp
  | cons g rest ih =>
    by_cases hg : g.api.id = id
    · simp [findProducer, hg] at h
    · simp only [findProducer, beq_iff_eq, hg, if_false, Option.map_eq_none'] at h
      intro f hf
      rcases List.mem_cons.mp hf with rfl | hf'
      · exact hg
      · exact ih h f hf'

/-! ### Lemmas about `instantiate` and `withRun` -/

theorem instantiate_nil (factories : List (ApiFactory V)) (apis : Registry V) :
    instantiate factories [] apis = apis := rfl

theorem instantiate_cons (factories : List (ApiFactory V)) (i : Nat)
    (q : List Nat) (apis : Registry V) :
    instantiate factories (i :: q) apis =
      instantiate factories q (instStepReg factories apis i) := rfl

theorem instantiate_append (factories : List (ApiFactory V)) (q1 q2 : List Nat)
    (apis : Registry V) :
    instantiate factories (q1 ++ q2) apis =
      instantiate factories q2 (instantiate factories q1 apis) := by
  simp [instantiate, List.foldl_append]

/-- Keys not produced by any queue member are untouched by instantiation. -/
theorem get_instantiate_of_not_produced (factories : List (ApiFactory V))
    (q : List Nat) (apis : Registry V) (k : String)
    (h : ∀ i ∈ q, ∀ f, factories[i]? = some f → f.api.id ≠ k) :
    Registry.get (instantiate factories q apis) k = Registry.get apis k := by
  induction q generalizing apis with
  | nil => rfl
  | cons i rest ih =>
    rw [instantiate_cons]
    rw [ih _ (fun j hj f hf => h j (List.mem_cons_of_mem i hj) f hf)]
    unfold instStepReg
    cases hfi : factories[i]? with
    | none => rfl
    | some f => exact Registry.get_set_ne _ _ _ _ (h i (List.mem_cons_self i rest) f hfi).symm |>.symm ▸ rfl

theorem instStep_eq (factories : List (ApiFactory V)) (st : WithState V)
    (i : Nat) :
    instStep factories st i = ⟨st.receiver, instStepReg factories st.copy i⟩ := by
  cases st
  unfold instStep instStepReg
  cases factories[i]? <;> rfl

theorem foldl_instStep (factories : List (ApiFactory V)) (q : List Nat)
    (st : WithState V) :
    q.foldl (instStep factories) st =
      ⟨st.receiver, instantiate factories q st.copy⟩ := by
  induction q generalizing st with
  | nil => cases st; rfl
  | cons i rest ih =>
    rw [List.foldl_cons, instStep_eq, ih, instantiate_cons]

/-- Evaluation of `withRun` in terms of the queue construction and the pure
instantiation fold. -/
theorem withRun_eq (base : Registry V) (factories : List (ApiFactory V)) :
    withRun base factories =
      (match buildQueue base factories (factories.length + 1)
          (List.range factories.length) [] with
        | .error e => .error e
        | .ok queue => .ok (instantiate factories queue base), base) := by
  unfold withRun
  cases hq : buildQueue base factories (factories.length + 1)
      (List.range factories.length) [] with
  | error e => simp [hq]
  | ok queue => simp [hq, foldl_instStep]

theorem withF_eq (base : Registry V) (factories : List (ApiFactory V)) :
    withF base factories =
      match buildQueue base factories (factories.length + 1)
          (List.range factories.length) [] with
      | .error e => .error e
      | .ok queue => .ok (instantiate factories queue base) := by
  unfold withF
  rw [withRun_eq]

/-- Classifier for the duplicate-registration outcome of a `with` call. -/
def isDuplicateError : Except ResolverError (Registry V) → Bool
  | .error (.duplicate _) => true
  | _ => false

instance {ε α : Type} [DecidableEq ε] [DecidableEq α] :
    DecidableEq (Except ε α) := fun a b =>
  match a, b with
  | .ok x, .ok y =>
    if h : x = y then .isTrue (by rw [h]) else .isFalse (by simp [h])
  | .error x, .error y =>
    if h : x = y then .isTrue (by rw [h]) else .isFalse (by simp [h])
  | .ok _, .error _ => .isFalse (by simp)
  | .error _, .ok _ => .isFalse (by simp)

/-! ### Concrete factories used by the unit-test scenarios -/

/-- Factory producing `x` with value 1 and no dependencies. -/
def dupX1 : ApiFactory Nat := ⟨⟨"x"⟩, [], fun _ => 1⟩

/-- A second factory also producing `x`, with value 2. -/
def dupX2 : ApiFactory Nat := ⟨⟨"x"⟩, [], fun _ => 2⟩

/-- A base registry already containing `a`. -/
def baseA : Registry Nat := [("a", 1)]

/-- Factory producing `c` with a dangling dependency on `missing`. -/
def facMissingC : ApiFactory Nat :=
  ⟨⟨"c"⟩, [("missing", ⟨"missing"⟩)], fun _ => 0⟩

/-- Factory producing `a`, duplicating the entry of `baseA`. -/
def facDupA : ApiFactory Nat := ⟨⟨"a"⟩, [], fun _ => 2⟩

/-- Factory producing `b` from the already-registered `a`. -/
def facBfromA : ApiFactory Nat :=
  ⟨⟨"b"⟩, [("ai", ⟨"a"⟩)], fun args =>
    match List.lookup "ai" args with
    | some (some v) => v + 1
    | _ => 0⟩

/-! ### Claim theorems: frame and resolve -/

/-- C6: `with` never mutates the receiver.  `withRun` returns, next to the
call's result, the receiver's registry as observable after the call; it equals
the registry before the call, so every `resolve` on the receiver is unchanged,
and on failure the error is returned with the receiver intact and no partial
registry is observable anywhere. -/
theorem with_never_mutates_receiver (base : Registry V)
    (factories : List (ApiFactory V)) :
    (withRun base factories).2 = base ∧
    (∀ (α : Type) (x : ApiRefT α),
      resolveApi (withRun base factories).2 x = resolveApi base x) ∧
    (∀ e, (withRun base factories).1 = .error e →
      withRun base factories = (.error e, base)) := by
  have h2 : (withRun base factories).2 = base := by
    rw [withRun_eq]
  refine ⟨h2, fun α x => by rw [h2], fun e he => ?_⟩
  have : withRun base factories = ((withRun base factories).1, (withRun base factories).2) := rfl
  rw [this, he, h2]

/-- Witness for C6 at a concrete input: after registering `b` on top of
`baseA`, the receiver's registry is unchanged. -/
theorem with_never_mutates_receiver_witness :
    (withRun baseA [facBfromA]).2 = baseA :=
  (with_never_mutates_receiver baseA [facBfromA]).1

/-- C10: `resolve` is keyed solely by the reference's id and never raises:
references with equal ids resolve identically whatever their payload types,
an id absent from the registry resolves to `none`, and on the empty resolver
every reference resolves to `none`. -/
theorem resolve_keyed_by_id_only (m : Registry V) :
    (∀ (α β : Type) (r1 : ApiRefT α) (r2 : ApiRefT β), r1.id = r2.id →
      resolveApi m r1 = resolveApi m r2) ∧
    (∀ (α : Type) (r : ApiRefT α), Registry.has m r.id = false →
      resolveApi m r = none) ∧
    (∀ (α : Type) (r : ApiRefT α),
      resolveApi (emptyResolver : Registry V) r = none) := by
  refine ⟨fun α β r1 r2 h => ?_, fun α r h => ?_, fun α r => rfl⟩
  · unfold resolveApi
    rw [h]
  · exact Registry.get_of_has_false m r.id h

/-- Witness for C10 at concrete inputs: two references sharing id `a` with
payloads of different types resolve to the same value, and an absent id
resolves to `none` on both `baseA` and the empty resolver. -/
theorem resolve_keyed_by_id_only_witness :
    resolveApi baseA (⟨"a", ()⟩ : ApiRefT Unit) =
      resolveApi baseA (⟨"a", true⟩ : ApiRefT Bool) ∧
    resolveApi baseA (⟨"zz", ()⟩ : ApiRefT Unit) = none ∧
    resolveApi (emptyResolver : Registry Nat) (⟨"a", ()⟩ : ApiRefT Unit) = none := by
  refine ⟨?_, ?_, ?_⟩
  · exact (resolve_keyed_by_id_only baseA).1 Unit Bool ⟨"a", ()⟩ ⟨"a", true⟩ rfl
  · exact (resolve_keyed_by_id_only baseA).2.1 Unit ⟨"zz", ()⟩ (by decide)
  · exact (resolve_keyed_by_id_only (m := baseA)).2.2 Unit ⟨"a", ()⟩

/-! ### Counterexample computations -/

/-- C2 counterexample: a batch with two factories producing the same id `x`
(absent from the base) is not rejected; both instantiate and the later one
overwrites the earlier, yielding `x = 2`. -/
theorem dup_in_batch_not_rejected :
    withF ([] : Registry Nat) [dupX1, dupX2] = .ok [("x", 2)] := by decide

/-- C3 counterexample: the batch `[facMissingC, facDupA]` against a base that
already has `a` contains a duplicate factory, yet `with` fails with the
missing-dependency error of the earlier factory, not with
duplicate-registration. -/
theorem dup_preempted_by_missing :
    withF baseA [facMissingC, facDupA] =
      .error (.missing "Could not resolve API dependency in chain, c -> missing") ∧
    isDuplicateError (withF baseA [facMissingC, facDupA]) = false := by
  constructor <;> decide

/-- C4 counterexample: the batch `[facDupA, facMissingC]` against `baseA`
contains a factory with an unresolvable dependency (`c -> missing`), yet
`with` fails with the duplicate-registration error of the earlier factory,
not with the missing-dependency error. -/
theorem missing_preempted_by_duplicate :
    withF baseA [facDupA, facMissingC] =
      .error (.duplicate "API a was already registered") ∧
    isDuplicateError (withF baseA [facDupA, facMissingC]) = true := by
  constructor <;> decide

/-- C7 counterexample: `with` on an empty batch succeeds and returns a registry
with exactly the same entries, not a strictly larger one. -/
theorem empty_batch_succeeds_same_size :
    withF baseA ([] : List (ApiFactory Nat)) = .ok baseA ∧
    ((withF baseA ([] : List (ApiFactory Nat))).map List.length = .ok baseA.length) := by
  constructor <;> decide

/-! ### Circular dependencies (C5) -/

/-- Unfolding of `enqueueDepthFirst` at positive fuel, keeping the recursive
occurrence folded. -/
theorem enqueueDepthFirst_succ (apis : Registry V)
    (factories : List (ApiFactory V)) (fuel i : Nat) (seen : List String)
    (queue : List Nat) :
    enqueueDepthFirst apis factories (fuel + 1) i seen queue =
      match factories[i]? with
      | none => .error .fuelExhausted
      | some factory =>
        match processDeps apis factories
            (enqueueDepthFirst apis factories fuel) factory.deps seen queue with
        | .error e => .error e
        | .ok queue1 => .ok (if i ∈ queue1 then queue1 else queue1 ++ [i]) := rfl

/-- Evaluation of `with` on a batch of two mutually-dependent factories: the
depth-first placement of the first factory recurses into the second and finds
the first factory's id already on the path, throwing the circular error whose
chain is the traversal path with the closing id repeated. -/
theorem withF_mutual_pair (base : Registry V) (x y n1 n2 : String)
    (fx fy : List (String × Option V) → V)
    (hxy : x ≠ y) (hx : Registry.has base x = false)
    (hy : Registry.has base y = false) :
    withF base [⟨⟨x⟩, [(n1, ⟨y⟩)], fx⟩, ⟨⟨y⟩, [(n2, ⟨x⟩)], fy⟩] =
      .error (.circular
        ("Circular API dependencies: " ++ joinArrow [x, y] ++ " -> " ++ x)) := by
  have hyx : y ≠ x := Ne.symm hxy
  have h1 : ∀ fuel, processDeps base
      [⟨⟨x⟩, [(n1, ⟨y⟩)], fx⟩, ⟨⟨y⟩, [(n2, ⟨x⟩)], fy⟩]
      (enqueueDepthFirst base
        [⟨⟨x⟩, [(n1, ⟨y⟩)], fx⟩, ⟨⟨y⟩, [(n2, ⟨x⟩)], fy⟩] fuel)
      [(n2, ⟨x⟩)] [x, y] [] =
      .error (.circular
        ("Circular API dependencies: " ++ joinArrow [x, y] ++ " -> " ++ x)) := by
    intro fuel
    simp [processDeps]
  have h2 : ∀ fuel, enqueueDepthFirst base
      [⟨⟨x⟩, [(n1, ⟨y⟩)], fx⟩, ⟨⟨y⟩, [(n2, ⟨x⟩)], fy⟩] (fuel + 1) 1 [x, y] [] =
      .error (.circular
        ("Circular API dependencies: " ++ joinArrow [x, y] ++ " -> " ++ x)) := by
    intro fuel
    rw [enqueueDepthFirst_succ]
    simp [h1 fuel]
  have hfp : findProducer y
      [(⟨⟨x⟩, [(n1, ⟨y⟩)], fx⟩ : ApiFactory V), ⟨⟨y⟩, [(n2, ⟨x⟩)], fy⟩] = some 1 := by
    simp [findProducer, hxy]
  have h3 : ∀ fuel, processDeps base
      [⟨⟨x⟩, [(n1, ⟨y⟩)], fx⟩, ⟨⟨y⟩, [(n2, ⟨x⟩)], fy⟩]
      (enqueueDepthFirst base
        [⟨⟨x⟩, [(n1, ⟨y⟩)], fx⟩, ⟨⟨y⟩, [(n2, ⟨x⟩)], fy⟩] (fuel + 1))
      [(n1, ⟨y⟩)] [x] [] =
      .error (.circular
        ("Circular API dependencies: " ++ joinArrow [x, y] ++ " -> " ++ x)) := by
    intro fuel
    simp [processDeps, hyx, hy, hfp, h2 fuel]
  have h4 : ∀ fuel, enqueueDepthFirst base
      [⟨⟨x⟩, [(n1, ⟨y⟩)], fx⟩, ⟨⟨y⟩, [(n2, ⟨x⟩)], fy⟩] (fuel + 1 + 1) 0 [x] [] =
      .error (.circular
        ("Circular API dependencies: " ++ joinArrow [x, y] ++ " -> " ++ x)) := by
    intro fuel
    rw [enqueueDepthFirst_succ]
    simp [h3 fuel]
  rw [withF_eq]
  have hlen : ([⟨⟨x⟩, [(n1, ⟨y⟩)], fx⟩, ⟨⟨y⟩, [(n2, ⟨x⟩)], fy⟩] :
      List (ApiFactory V)).length + 1 = 1 + 1 + 1 := rfl
  have hrange : List.range ([⟨⟨x⟩, [(n1, ⟨y⟩)], fx⟩, ⟨⟨y⟩, [(n2, ⟨x⟩)], fy⟩] :
      List (ApiFactory V)).length = [0, 1] := rfl
  rw [hlen, hrange]
  simp [buildQueue, hx, h4 1]

/-- C5: for every base registry and every pair of factories over ids `x ≠ y`
(neither in the base) whose dependency maps reference each other, `with` fails
with the circular-dependency error reporting the traversal path with the
closing identifier repeated, in both orderings of the two factories. -/
theorem circular_pair_always_fails (base : Registry V) (x y n1 n2 : String)
    (fx fy : List (String × Option V) → V)
    (hxy : x ≠ y) (hx : Registry.has base x = false)
    (hy : Registry.has base y = false) :
    withF base [⟨⟨x⟩, [(n1, ⟨y⟩)], fx⟩, ⟨⟨y⟩, [(n2, ⟨x⟩)], fy⟩] =
      .error (.circular
        ("Circular API dependencies: " ++ joinArrow [x, y] ++ " -> " ++ x)) ∧
    withF base [⟨⟨y⟩, [(n2, ⟨x⟩)], fy⟩, ⟨⟨x⟩, [(n1, ⟨y⟩)], fx⟩] =
      .error (.circular
        ("Circular API dependencies: " ++ joinArrow [y, x] ++ " -> " ++ y)) :=
  ⟨withF_mutual_pair base x y n1 n2 fx fy hxy hx hy,
   withF_mutual_pair base y x n2 n1 fy fx (Ne.symm hxy) hy hx⟩

/-- Witness for C5: the unit-test pair `a`/`b` over the empty resolver fails
with `a -> b -> a` and, in the swapped order, with `b -> a -> b`. -/
theorem circular_pair_always_fails_witness :
    withF ([] : Registry Nat)
      [⟨⟨"a"⟩, [("bi", ⟨"b"⟩)], fun _ => 1⟩, ⟨⟨"b"⟩, [("ai", ⟨"a"⟩)], fun _ => 2⟩] =
      .error (.circular "Circular API dependencies: a -> b -> a") ∧
    withF ([] : Registry Nat)
      [⟨⟨"b"⟩, [("ai", ⟨"a"⟩)], fun _ => 2⟩, ⟨⟨"a"⟩, [("bi", ⟨"b"⟩)], fun _ => 1⟩] =
      .error (.circular "Circular API dependencies: b -> a -> b") := by
  have h := circular_pair_always_fails ([] : Registry Nat) "a" "b" "bi" "ai"
    (fun _ => 1) (fun _ => 2) (by decide) rfl rfl
  exact ⟨h.1, h.2⟩

/-! ### Error propagation (C3 and C4) -/

theorem findProducer_eq_none_of_forall {factories : List (ApiFactory V)}
    {id : String} (h : ∀ g ∈ factories, g.api.id ≠ id) :
    findProducer id factories = none := by
  induction factories with
  | nil => rfl
  | cons g rest ih =>
    have hg : g.api.id ≠ id := h g (List.mem_cons_self g rest)
    simp only [findProducer, beq_iff_eq, hg, if_false, Option.map_eq_none']
    exact ih (fun g' hg' => h g' (List.mem_cons_of_mem g hg'))

/-- The deps loop throws some error whenever the list contains a dependency
that is neither in the copied registry nor produced by any batch factory:
either the cycle check fires on it, or the producer search fails. -/
theorem processDeps_error_of_bad_dep (apis : Registry V)
    (factories : List (ApiFactory V))
    (recur : Nat → List String → List Nat → Except ResolverError (List Nat))
    (l : List (String × ApiRef)) (seen : List String)
    (d : String × ApiRef) (hd : d ∈ l)
    (hbase : Registry.has apis d.2.id = false)
    (hprod : ∀ g ∈ factories, g.api.id ≠ d.2.id) :
    ∀ queue, ∃ e, processDeps apis factories recur l seen queue = .error e := by
  induction l with
  | nil => simp at hd
  | cons p rest ih =>
    intro queue
    obtain ⟨nm, dr⟩ := p
    by_cases hseen : dr.id ∈ seen
    · exact ⟨.circular
        ("Circular API dependencies: " ++ joinArrow seen ++ " -> " ++ dr.id),
        by simp [processDeps, hseen]⟩
    · rcases List.mem_cons.mp hd with heq | hmem
      · subst heq
        have hfp : findProducer dr.id factories = none :=
          findProducer_eq_none_of_forall hprod
        refine ⟨.missing
          ("Could not resolve API dependency in chain, " ++ joinArrow seen ++
            " -> " ++ dr.id), ?_⟩
        simp only [processDeps]
        simp [hseen, hbase, hfp]
      · by_cases hhas : Registry.has apis dr.id = true
        · obtain ⟨e, he⟩ := ih hmem queue
          exact ⟨e, by simp [processDeps, hseen, hhas, he]⟩
        · have hhas' : Registry.has apis dr.id = false := by simpa using hhas
          cases hfp : findProducer dr.id factories with
          | none => exact ⟨.missing
              ("Could not resolve API dependency in chain, " ++ joinArrow seen ++
                " -> " ++ dr.id),
              by simp [processDeps, hseen, hhas', hfp]⟩
          | some j =>
            cases hrec : recur j (seen ++ [dr.id]) queue with
            | error e =>
              exact ⟨e, by simp [processDeps, hseen, hhas', hfp, hrec]⟩
            | ok q2 =>
              obtain ⟨e, he⟩ := ih hmem q2
              exact ⟨e, by simp [processDeps, hseen, hhas', hfp, hrec, he]⟩

/-- The depth-first placement of a factory with an unsatisfiable direct
dependency throws, whatever the path, queue and fuel. -/
theorem enqueueDepthFirst_error_of_bad_dep (apis : Registry V)
    (factories : List (ApiFactory V)) (fuel i : Nat) (f : ApiFactory V)
    (hfi : factories[i]? = some f) (d : String × ApiRef) (hd : d ∈ f.deps)
    (hbase : Registry.has apis d.2.id = false)
    (hprod : ∀ g ∈ factories, g.api.id ≠ d.2.id)
    (seen : List String) (queue : List Nat) :
    ∃ e, enqueueDepthFirst apis factories fuel i seen queue = .error e := by
  cases fuel with
  | zero => exact ⟨.fuelExhausted, rfl⟩
  | succ fuel =>
    rw [enqueueDepthFirst_succ, hfi]
    obtain ⟨e, he⟩ := processDeps_error_of_bad_dep apis factories
      (enqueueDepthFirst apis factories fuel) f.deps seen d hd hbase hprod queue
    exact ⟨e, by simp [he]⟩

/-- The check loop throws whenever a listed index carries a factory that is a
duplicate against the copied registry or whose placement throws. -/
theorem buildQueue_error_of_bad (apis : Registry V)
    (factories : List (ApiFactory V)) (fuel : Nat) (idxs : List Nat)
    (i : Nat) (hi : i ∈ idxs)
    (hbad : ∀ f, factories[i]? = some f →
      Registry.has apis f.api.id = false →
      ∀ q, ∃ e, enqueueDepthFirst apis factories fuel i [f.api.id] q = .error e) :
    ∀ queue, ∃ e, buildQueue apis factories fuel idxs queue = .error e := by
  induction idxs with
  | nil => simp at hi
  | cons j rest ih =>
    intro queue
    cases hfj : factories[j]? with
    | none => exact ⟨.fuelExhausted, by simp [buildQueue, hfj]⟩
    | some g =>
      by_cases hdup : Registry.has apis g.api.id = true
      · exact ⟨.duplicate ("API " ++ g.api.id ++ " was already registered"),
          by simp [buildQueue, hfj, hdup]⟩
      · have hdup' : Registry.has apis g.api.id = false := by simpa using hdup
        rcases List.mem_cons.mp hi with rfl | hmem
        · obtain ⟨e, he⟩ := hbad g hfj hdup' queue
          exact ⟨e, by simp [buildQueue, hfj, hdup', he]⟩
        · cases hedf : enqueueDepthFirst apis factories fuel j [g.api.id] queue with
          | error e => exact ⟨e, by simp [buildQueue, hfj, hdup', hedf]⟩
          | ok q1 =>
            obtain ⟨e, he⟩ := ih hmem q1
            exact ⟨e, by simp [buildQueue, hfj, hdup', hedf, he]⟩

/-- C3 (amended): whenever the batch contains a factory whose produced id is
already registered in the receiver, `with` always fails — with the
duplicate-registration error naming that id when no earlier factory of the
batch fails first (concretely: the duplicate alone, and behind a valid
factory, both yield `API a was already registered`), though an invalid
earlier factory surfaces its own error instead; no entry is committed. -/
theorem duplicate_always_fails (base : Registry V)
    (batch : List (ApiFactory V)) (f : ApiFactory V) (hf : f ∈ batch)
    (hdup : Registry.has base f.api.id = true) :
    (∃ e, withF base batch = .error e) ∧
    withF baseA [facDupA] =
      .error (.duplicate "API a was already registered") ∧
    withF baseA [facBfromA, facDupA] =
      .error (.duplicate "API a was already registered") := by
  refine ⟨?_, by decide, by decide⟩
  obtain ⟨i, hfi⟩ := List.mem_iff_getElem?.mp hf
  have hrange : i ∈ List.range batch.length := by
    rw [List.mem_range]
    exact (List.getElem?_eq_some.mp hfi).1
  obtain ⟨e, he⟩ := buildQueue_error_of_bad base batch (batch.length + 1)
    (List.range batch.length) i hrange
    (fun g hg hfalse => by
      rw [hfi] at hg
      cases hg
      rw [hdup] at hfalse
      cases hfalse) []
  rw [withF_eq, he]
  exact ⟨e, rfl⟩

/-- Witness for C3 (amended) at the unit-test input: the batch `[facDupA]`
against `baseA` fails. -/
theorem duplicate_always_fails_witness :
    Registry.has baseA facDupA.api.id = true ∧
    (∃ e, withF baseA [facDupA] = .error e) := by
  have h := duplicate_always_fails baseA [facDupA] facDupA
    (List.mem_cons_self _ _) (by decide)
  exact ⟨by decide, h.1⟩

/-- C4 (amended): whenever the batch contains a factory with a direct
dependency id that is neither in the base registry nor produced by any batch
factory, `with` always fails — with the missing-dependency error reporting the
exact chain when no earlier factory of the batch fails first; concretely, both
permutations of the dangling test batch report `c -> missing`. -/
theorem missing_dep_always_fails (base : Registry V)
    (batch : List (ApiFactory V)) (f : ApiFactory V) (hf : f ∈ batch)
    (d : String × ApiRef) (hd : d ∈ f.deps)
    (hbase : Registry.has base d.2.id = false)
    (hprod : ∀ g ∈ batch, g.api.id ≠ d.2.id) :
    (∃ e, withF base batch = .error e) ∧
    withF baseA [facMissingC, facBfromA] =
      .error (.missing "Could not resolve API dependency in chain, c -> missing") ∧
    withF baseA [facBfromA, facMissingC] =
      .error (.missing "Could not resolve API dependency in chain, c -> missing") := by
  refine ⟨?_, by decide, by decide⟩
  obtain ⟨i, hfi⟩ := List.mem_iff_getElem?.mp hf
  have hrange : i ∈ List.range batch.length := by
    rw [List.mem_range]
    exact (List.getElem?_eq_some.mp hfi).1
  obtain ⟨e, he⟩ := buildQueue_error_of_bad base batch (batch.length + 1)
    (List.range batch.length) i hrange
    (fun g hg _ q => by
      rw [hfi] at hg
      cases hg
      exact enqueueDepthFirst_error_of_bad_dep base batch (batch.length + 1) i
        f hfi d hd hbase hprod [f.api.id] q) []
  rw [withF_eq, he]
  exact ⟨e, rfl⟩

/-- Witness for C4 (amended) at the unit-test input: the dangling batch
`[facMissingC, facBfromA]` against `baseA` fails. -/
theorem missing_dep_always_fails_witness :
    ("missing", (⟨"missing"⟩ : ApiRef)) ∈ facMissingC.deps ∧
    Registry.has baseA "missing" = false ∧
    (∃ e, withF baseA [facMissingC, facBfromA] = .error e) := by
  have h := missing_dep_always_fails baseA [facMissingC, facBfromA] facMissingC
    (List.mem_cons_self _ _) ("missing", ⟨"missing"⟩) (by decide) (by decide)
    (by decide)
  exact ⟨by decide, by decide, h.1⟩

/-! ### Success inversion: what a successful `with` guarantees (C2, C7) -/

/-- Indices that may enter the queue beyond the incoming one: valid positions
whose factory's produced id is absent from the copied registry. -/
def NewIdx (apis : Registry V) (factories : List (ApiFactory V)) (x : Nat) :
    Prop :=
  ∃ g, factories[x]? = some g ∧ Registry.has apis g.api.id = false

theorem processDeps_ok_inv (apis : Registry V)
    (factories : List (ApiFactory V))
    (recur : Nat → List String → List Nat → Except ResolverError (List Nat))
    (hrec : ∀ j id', findProducer id' factories = some j →
      Registry.has apis id' = false →
      ∀ seen' q q', recur j seen' q = .ok q' →
        (∀ x ∈ q', x ∈ q ∨ NewIdx apis factories x) ∧ (∃ t, q' = q ++ t)) :
    ∀ (l : List (String × ApiRef)) (seen : List String) (queue q' : List Nat),
      processDeps apis factories recur l seen queue = .ok q' →
      (∀ x ∈ q', x ∈ queue ∨ NewIdx apis factories x) ∧
      (∃ t, q' = queue ++ t) := by
  intro l
  induction l with
  | nil =>
    intro seen queue q' h
    simp only [processDeps] at h
    cases h
    exact ⟨fun x hx => .inl hx, ⟨[], by simp⟩⟩
  | cons p rest ih =>
    intro seen queue q' h
    obtain ⟨nm, dr⟩ := p
    by_cases hseen : dr.id ∈ seen
    · simp [processDeps, hseen] at h
    · by_cases hhas : Registry.has apis dr.id = true
      · simp only [processDeps, hseen, if_false, hhas, if_true] at h
        exact ih seen queue q' (by simpa using h)
      · have hhas' : Registry.has apis dr.id = false := by simpa using hhas
        cases hfp : findProducer dr.id factories with
        | none => simp [processDeps, hseen, hhas', hfp] at h
        | some j =>
          cases hrec' : recur j (seen ++ [dr.id]) queue with
          | error e => simp [processDeps, hseen, hhas', hfp, hrec'] at h
          | ok q2 =>
            have h2 : processDeps apis factories recur rest seen q2 = .ok q' := by
              simpa [processDeps, hseen, hhas', hfp, hrec'] using h
            obtain ⟨hmem2, hext2⟩ := hrec j dr.id hfp hhas' _ _ _ hrec'
            obtain ⟨hmem', hext'⟩ := ih seen q2 q' h2
            refine ⟨fun x hx => ?_, ?_⟩
            · rcases hmem' x hx with hx2 | hnew
              · exact hmem2 x hx2
              · exact .inr hnew
            · obtain ⟨t1, ht1⟩ := hext2
              obtain ⟨t2, ht2⟩ := hext'
              exact ⟨t1 ++ t2, by rw [ht2, ht1, List.append_assoc]⟩

theorem enqueueDepthFirst_ok_inv (apis : Registry V)
    (factories : List (ApiFactory V)) :
    ∀ (fuel i : Nat) (seen : List String) (queue q' : List Nat),
      enqueueDepthFirst apis factories fuel i seen queue = .ok q' →
      (∀ g, factories[i]? = some g → Registry.has apis g.api.id = false) →
      (∀ x ∈ q', x ∈ queue ∨ NewIdx apis factories x) ∧
      (∃ t, q' = queue ++ t) ∧ i ∈ q' := by
  intro fuel
  induction fuel with
  | zero => intro i seen queue q' h; cases h
  | succ fuel ih =>
    intro i seen queue q' h hbase
    rw [enqueueDepthFirst_succ] at h
    cases hfi : factories[i]? with
    | none => rw [hfi] at h; cases h
    | some f =>
      rw [hfi] at h
      have hstep : (match (some f : Option (ApiFactory V)) with
          | none => (.error .fuelExhausted :
              Except ResolverError (List Nat))
          | some factory =>
            match processDeps apis factories
                (enqueueDepthFirst apis factories fuel)
                factory.deps seen queue with
            | .error e => .error e
            | .ok queue1 =>
              .ok (if i ∈ queue1 then queue1 else queue1 ++ [i])) =
          (match processDeps apis factories
              (enqueueDepthFirst apis factories fuel) f.deps seen queue with
            | .error e => .error e
            | .ok queue1 =>
              .ok (if i ∈ queue1 then queue1 else queue1 ++ [i])) := rfl
      rw [hstep] at h
      cases hpd : processDeps apis factories
          (enqueueDepthFirst apis factories fuel) f.deps seen queue with
      | error e => rw [hpd] at h; cases h
      | ok q1 =>
        rw [hpd] at h
        have hq' : q' = if i ∈ q1 then q1 else q1 ++ [i] := by
          cases h; rfl
        have hrec : ∀ j id', findProducer id' factories = some j →
            Registry.has apis id' = false →
            ∀ seen' q q',
              enqueueDepthFirst apis factories fuel j seen' q = .ok q' →
              (∀ x ∈ q', x ∈ q ∨ NewIdx apis factories x) ∧
              (∃ t, q' = q ++ t) := by
          intro j id' hfp hhas seen' q q'' hrun
          obtain ⟨g, hgj, hgid⟩ := findProducer_eq_some hfp
          have := ih j seen' q q'' hrun
            (fun g' hg' => by
              rw [hgj] at hg'
              cases hg'
              rw [hgid]
              exact hhas)
          exact ⟨this.1, this.2.1⟩
        obtain ⟨hmem1, hext1⟩ := processDeps_ok_inv apis factories _ hrec
          f.deps seen queue q1 hpd
        have hiNew : NewIdx apis factories i := ⟨f, hfi, hbase f hfi⟩
        by_cases hiq : i ∈ q1
        · rw [hq', if_pos hiq]
          exact ⟨hmem1, hext1, hiq⟩
        · rw [hq', if_neg hiq]
          refine ⟨fun x hx => ?_, ?_, by simp⟩
          · rcases List.mem_append.mp hx with hx1 | hx2
            · exact hmem1 x hx1
            · rw [List.mem_singleton.mp hx2]
              exact .inr hiNew
          · obtain ⟨t, ht⟩ := hext1
            exact ⟨t ++ [i], by rw [ht, List.append_assoc]⟩

theorem buildQueue_ok_inv (apis : Registry V)
    (factories : List (ApiFactory V)) (fuel : Nat) :
    ∀ (idxs : List Nat) (queue q' : List Nat),
      buildQueue apis factories fuel idxs queue = .ok q' →
      (∀ x ∈ q', x ∈ queue ∨ NewIdx apis factories x) ∧
      (∃ t, q' = queue ++ t) ∧ (∀ i ∈ idxs, i ∈ q') := by
  intro idxs
  induction idxs with
  | nil =>
    intro queue q' h
    simp only [buildQueue] at h
    cases h
    exact ⟨fun x hx => .inl hx, ⟨[], by simp⟩, by simp⟩
  | cons j rest ih =>
    intro queue q' h
    cases hfj : factories[j]? with
    | none => simp [buildQueue, hfj] at h
    | some g =>
      by_cases hdup : Registry.has apis g.api.id = true
      · simp [buildQueue, hfj, hdup] at h
      · have hdup' : Registry.has apis g.api.id = false := by simpa using hdup
        cases hedf : enqueueDepthFirst apis factories fuel j [g.api.id] queue with
        | error e => simp [buildQueue, hfj, hdup', hedf] at h
        | ok q1 =>
          have h2 : buildQueue apis factories fuel rest q1 = .ok q' := by
            simpa [buildQueue, hfj, hdup', hedf] using h
          obtain ⟨hmem1, hext1, hjq1⟩ := enqueueDepthFirst_ok_inv apis factories
            fuel j [g.api.id] queue q1 hedf
            (fun g' hg' => by rw [hfj] at hg'; cases hg'; exact hdup')
          obtain ⟨hmem', hext', hall'⟩ := ih q1 q' h2
          refine ⟨fun x hx => ?_, ?_, fun i hi => ?_⟩
          · rcases hmem' x hx with hx1 | hnew
            · exact hmem1 x hx1
            · exact .inr hnew
          · obtain ⟨t1, ht1⟩ := hext1
            obtain ⟨t2, ht2⟩ := hext'
            exact ⟨t1 ++ t2, by rw [ht2, ht1, List.append_assoc]⟩
          · rcases List.mem_cons.mp hi with rfl | hirest
            · obtain ⟨t2, ht2⟩ := hext'
              rw [ht2]
              exact List.mem_append_left _ hjq1
            · exact hall' i hirest

/-- Inversion of a successful `with` call: the result is the instantiation of
a queue whose members are all valid batch positions with ids absent from the
base, and which covers every batch position. -/
theorem withF_ok_inv (base : Registry V) (batch : List (ApiFactory V))
    (R : Registry V) (h : withF base batch = .ok R) :
    ∃ q, R = instantiate batch q base ∧
      (∀ x ∈ q, NewIdx base batch x) ∧
      (∀ i, i < batch.length → i ∈ q) := by
  rw [withF_eq] at h
  cases hq : buildQueue base batch (batch.length + 1)
      (List.range batch.length) [] with
  | error e => rw [hq] at h; cases h
  | ok q =>
    rw [hq] at h
    cases h
    obtain ⟨hmem, _, hall⟩ := buildQueue_ok_inv base batch (batch.length + 1)
      (List.range batch.length) [] q hq
    refine ⟨q, rfl, fun x hx => ?_, fun i hi => ?_⟩
    · rcases hmem x hx with hx0 | hnew
      · simp at hx0
      · exact hnew
    · exact hall i (List.mem_range.mpr hi)

/-- C2 (amended): a successful `with` never overwrites a key that was present
in the receiver before the call — every base entry keeps its value in the
result; but a batch containing two factories producing the same id absent
from the base is not rejected: both instantiate and the later one's value
wins (see the counterexample). -/
theorem with_never_overwrites_base (base : Registry V)
    (batch : List (ApiFactory V)) (R : Registry V)
    (h : withF base batch = .ok R) :
    ∀ k, Registry.has base k = true → Registry.get R k = Registry.get base k := by
  intro k hk
  obtain ⟨q, hR, hnew, _⟩ := withF_ok_inv base batch R h
  rw [hR]
  refine get_instantiate_of_not_produced batch q base k (fun i hi f hf hfk => ?_)
  obtain ⟨g, hg, hgbase⟩ := hnew i hi
  rw [hf] at hg
  cases hg
  rw [hfk] at hgbase
  rw [hk] at hgbase
  cases hgbase

/-- Witness for C2 (amended): registering `b` (which depends on the
pre-registered `a`) on top of `baseA` succeeds and leaves the entry for `a`
untouched. -/
theorem with_never_overwrites_base_witness :
    withF baseA [facBfromA] = .ok [("a", 1), ("b", 2)] ∧
    Registry.get [("a", 1), ("b", 2)] "a" = Registry.get baseA "a" := by
  refine ⟨by decide, ?_⟩
  exact with_never_overwrites_base baseA [facBfromA] [("a", 1), ("b", 2)]
    (by decide) "a" (by decide)

/-- Instantiation never shrinks the registry. -/
theorem length_le_instantiate (factories : List (ApiFactory V))
    (q : List Nat) (apis : Registry V) :
    apis.length ≤ (instantiate factories q apis).length := by
  induction q generalizing apis with
  | nil => exact Nat.le_refl _
  | cons i rest ih =>
    rw [instantiate_cons]
    refine Nat.le_trans ?_ (ih _)
    unfold instStepReg
    cases factories[i]? with
    | none => exact Nat.le_refl _
    | some f => exact Registry.length_set_le _ _ _

/-- C7 (amended): `with` either fails entirely, or succeeds returning a
registry that contains every base entry unchanged and is strictly larger
whenever the batch is nonempty; an empty batch succeeds with an equal
registry (see the counterexample). -/
theorem with_fails_or_grows (base : Registry V)
    (batch : List (ApiFactory V)) :
    (∃ e, withF base batch = .error e) ∨
    (∃ R, withF base batch = .ok R ∧
      (∀ k, Registry.has base k = true →
        Registry.get R k = Registry.get base k) ∧
      (batch ≠ [] → base.length < R.length)) := by
  cases h : withF base batch with
  | error e => exact .inl ⟨e, rfl⟩
  | ok R =>
    refine .inr ⟨R, rfl, with_never_overwrites_base base batch R h, fun hne => ?_⟩
    obtain ⟨q, hR, hnew, hall⟩ := withF_ok_inv base batch R h
    have h0 : 0 ∈ q := by
      refine hall 0 ?_
      cases batch with
      | nil => exact absurd rfl hne
      | cons f rest => simp
    cases hq : q with
    | nil => rw [hq] at h0; cases h0
    | cons j qrest =>
      rw [hq] at hR
      rw [hR, instantiate_cons]
      obtain ⟨g, hg, hgbase⟩ := hnew j (by rw [hq]; simp)
      have hstep : (instStepReg batch base j).length = base.length + 1 := by
        unfold instStepReg
        rw [hg]
        exact Registry.length_set_of_not_has base g.api.id _ hgbase
      have := length_le_instantiate batch qrest (instStepReg batch base j)
      omega

/-- Witness for C7 (amended): on the nonempty batch `[facBfromA]` over
`baseA`, `with` succeeds with a strictly larger registry. -/
theorem with_fails_or_grows_witness :
    (∃ e, withF baseA [facBfromA] = .error e) ∨
    (∃ R, withF baseA [facBfromA] = .ok R ∧
      (∀ k, Registry.has baseA k = true →
        Registry.get R k = Registry.get baseA k) ∧
      ([facBfromA] ≠ [] → baseA.length < R.length)) :=
  with_fails_or_grows baseA [facBfromA]

/-! ### Termination: the supplied fuel always suffices (C9) -/

/-- Classifier for the fuel artefact of the embedding. -/
def isFuelExhausted : Except ResolverError (Registry V) → Bool
  | .error .fuelExhausted => true
  | _ => false

theorem processDeps_ne_fuelExhausted (apis : Registry V)
    (factories : List (ApiFactory V))
    (recur : Nat → List String → List Nat → Except ResolverError (List Nat))
    (l : List (String × ApiRef)) (seen : List String)
    (hrec : ∀ j id', findProducer id' factories = some j →
      Registry.has apis id' = false → id' ∉ seen →
      ∀ q, recur j (seen ++ [id']) q ≠ .error .fuelExhausted) :
    ∀ queue, processDeps apis factories recur l seen queue ≠
      .error .fuelExhausted := by
  induction l with
  | nil => intro queue h; cases h
  | cons p rest ih =>
    intro queue h
    obtain ⟨nm, dr⟩ := p
    by_cases hseen : dr.id ∈ seen
    · simp [processDeps, hseen] at h
    · by_cases hhas : Registry.has apis dr.id = true
      · rw [show processDeps apis factories recur ((nm, dr) :: rest) seen queue =
            processDeps apis factories recur rest seen queue by
          simp [processDeps, hseen, hhas]] at h
        exact ih queue h
      · have hhas' : Registry.has apis dr.id = false := by simpa using hhas
        cases hfp : findProducer dr.id factories with
        | none => simp [processDeps, hseen, hhas', hfp] at h
        | some j =>
          cases hrec' : recur j (seen ++ [dr.id]) queue with
          | error e =>
            have he : (.error e : Except ResolverError (List Nat)) =
                .error .fuelExhausted := by
              simpa [processDeps, hseen, hhas', hfp, hrec'] using h
            exact hrec j dr.id hfp hhas' hseen queue (hrec'.trans he)
          | ok q2 =>
            have h2 : processDeps apis factories recur rest seen q2 =
                .error .fuelExhausted := by
              simpa [processDeps, hseen, hhas', hfp, hrec'] using h
            exact ih q2 h2

theorem enqueueDepthFirst_ne_fuelExhausted (apis : Registry V)
    (factories : List (ApiFactory V)) :
    ∀ (fuel i : Nat) (seen : List String) (queue : List Nat),
      i < factories.length →
      seen.Nodup →
      (∀ s ∈ seen, s ∈ factories.map (·.api.id)) →
      (factories.map (·.api.id)).dedup.length < fuel + seen.length →
      enqueueDepthFirst apis factories fuel i seen queue ≠
        .error .fuelExhausted := by
  intro fuel
  induction fuel with
  | zero =>
    intro i seen queue _ hnd hsub hcount
    have hle : seen.length ≤ (factories.map (·.api.id)).dedup.length :=
      (List.subperm_of_subset hnd
        (fun x hx => List.mem_dedup.mpr (hsub x hx))).length_le
    omega
  | succ fuel ih =>
    intro i seen queue hi hnd hsub hcount h
    rw [enqueueDepthFirst_succ] at h
    cases hfi : factories[i]? with
    | none =>
      rw [List.getElem?_eq_none_iff] at hfi
      omega
    | some f =>
      rw [hfi] at h
      have hstep : (match (some f : Option (ApiFactory V)) with
          | none => (.error .fuelExhausted :
              Except ResolverError (List Nat))
          | some factory =>
            match processDeps apis factories
                (enqueueDepthFirst apis factories fuel)
                factory.deps seen queue with
            | .error e => .error e
            | .ok queue1 =>
              .ok (if i ∈ queue1 then queue1 else queue1 ++ [i])) =
          (match processDeps apis factories
              (enqueueDepthFirst apis factories fuel) f.deps seen queue with
            | .error e => .error e
            | .ok queue1 =>
              .ok (if i ∈ queue1 then queue1 else queue1 ++ [i])) := rfl
      rw [hstep] at h
      have hrec : ∀ j id', findProducer id' factories = some j →
          Registry.has apis id' = false → id' ∉ seen →
          ∀ q, enqueueDepthFirst apis factories fuel j (seen ++ [id']) q ≠
            .error .fuelExhausted := by
        intro j id' hfp hhas hid q
        obtain ⟨g, hgj, hgid⟩ := findProducer_eq_some hfp
        obtain ⟨hjlt, hgget⟩ := List.getElem?_eq_some.mp hgj
        refine ih j (seen ++ [id']) q hjlt ?_ ?_ ?_
        · simp [List.nodup_append, hnd, hid]
        · intro s hs
          rcases List.mem_append.mp hs with hs1 | hs2
          · exact hsub s hs1
          · rw [List.mem_singleton.mp hs2, ← hgid, ← hgget]
            exact List.mem_map_of_mem _ (List.getElem_mem hjlt)
        · simp only [List.length_append, List.length_singleton]
          omega
      cases hpd : processDeps apis factories
          (enqueueDepthFirst apis factories fuel) f.deps seen queue with
      | error e =>
        rw [hpd] at h
        cases h
        exact processDeps_ne_fuelExhausted apis factories _ f.deps seen hrec
          queue hpd
      | ok q1 => rw [hpd] at h; cases h

theorem buildQueue_ne_fuelExhausted (base : Registry V)
    (batch : List (ApiFactory V)) :
    ∀ (idxs : List Nat) (queue : List Nat),
      (∀ i ∈ idxs, i < batch.length) →
      buildQueue base batch (batch.length + 1) idxs queue ≠
        .error .fuelExhausted := by
  intro idxs
  induction idxs with
  | nil => intro queue _ h; cases h
  | cons j rest ih =>
    intro queue hlt h
    cases hfj : batch[j]? with
    | none =>
      rw [List.getElem?_eq_none_iff] at hfj
      have := hlt j (List.mem_cons_self j rest)
      omega
    | some g =>
      by_cases hdup : Registry.has base g.api.id = true
      · simp [buildQueue, hfj, hdup] at h
      · have hdup' : Registry.has base g.api.id = false := by simpa using hdup
        have hjlt : j < batch.length := hlt j (List.mem_cons_self j rest)
        have hedfne : enqueueDepthFirst base batch (batch.length + 1) j
            [g.api.id] queue ≠ .error .fuelExhausted := by
          refine enqueueDepthFirst_ne_fuelExhausted base batch
            (batch.length + 1) j [g.api.id] queue hjlt (by simp) ?_ ?_
          · intro s hs
            rw [List.mem_singleton.mp hs]
            have := List.getElem?_eq_some.mp hfj
            rw [← this.2]
            exact List.mem_map_of_mem _ (List.getElem_mem this.1)
          · have : (batch.map (·.api.id)).dedup.length ≤ batch.length := by
              have h1 := (List.dedup_sublist (batch.map (·.api.id))).length_le
              simpa using h1
            simp only [List.length_singleton]
            omega
        cases hedf : enqueueDepthFirst base batch (batch.length + 1) j
            [g.api.id] queue with
        | error e =>
          have he : (.error e : Except ResolverError (List Nat)) =
              .error .fuelExhausted := by
            simpa [buildQueue, hfj, hdup', hedf] using h
          exact hedfne (hedf.trans he)
        | ok q1 =>
          have h2 : buildQueue base batch (batch.length + 1) rest q1 =
              .error .fuelExhausted := by
            simpa [buildQueue, hfj, hdup', hedf] using h
          exact ih q1 (fun i hi => hlt i (List.mem_cons_of_mem j hi)) h2

/-- C9: `with` terminates on every receiver and every finite batch: the fuel
`factories.length + 1` supplied by `withF` (one unit per nesting level of the
depth-first placement, whose path of distinct identifiers cannot exceed the
batch size before the cycle check fires) is never exhausted, so the call
always returns an ordinary result — one of the three errors or success. -/
theorem with_always_terminates (base : Registry V)
    (batch : List (ApiFactory V)) :
    isFuelExhausted (withF base batch) = false := by
  rw [withF_eq]
  cases hq : buildQueue base batch (batch.length + 1)
      (List.range batch.length) [] with
  | error e =>
    have hne := buildQueue_ne_fuelExhausted base batch
      (List.range batch.length) [] (fun i hi => List.mem_range.mp hi)
    rw [hq] at hne
    cases e with
    | fuelExhausted => exact absurd rfl hne
    | circular msg => rfl
    | missing msg => rfl
    | duplicate msg => rfl
  | ok q => rfl

/-! ### Incremental growth versus one batch (C8) -/

/-- Dependencies that are present in the copied registry and not on the path
are skipped by the deps loop without touching the queue. -/
theorem processDeps_skips_present (apis : Registry V)
    (factories : List (ApiFactory V))
    (recur : Nat → List String → List Nat → Except ResolverError (List Nat))
    (l : List (String × ApiRef)) (seen : List String)
    (h : ∀ d ∈ l, Registry.has apis d.2.id = true ∧ d.2.id ∉ seen) :
    ∀ queue, processDeps apis factories recur l seen queue = .ok queue := by
  induction l with
  | nil => intro queue; rfl
  | cons p rest ih =>
    intro queue
    obtain ⟨nm, dr⟩ := p
    obtain ⟨hhas, hseen⟩ := h (nm, dr) (List.mem_cons_self _ _)
    have hrest := fun d hd => h d (List.mem_cons_of_mem _ hd)
    simp [processDeps, hseen, hhas, ih hrest queue]

/-- Placing the second factory of `[a, b]` when all of `b`'s dependencies are
already registered: its deps are skipped and `b`'s position is appended to the
queue unless already present. -/
theorem edf_on_second (base : Registry V) (a b : ApiFactory V) (fuel : Nat)
    (seen : List String)
    (hsp : ∀ d ∈ b.deps, Registry.has base d.2.id = true ∧ d.2.id ∉ seen) :
    ∀ q, enqueueDepthFirst base [a, b] (fuel + 1) 1 seen q =
      .ok (if 1 ∈ q then q else q ++ [1]) := by
  intro q
  rw [enqueueDepthFirst_succ]
  simp only [List.getElem?_cons_succ, List.getElem?_cons_zero,
    processDeps_skips_present base [a, b] _ b.deps seen hsp]

/-- The deps loop of the first factory of `[a, b]`, when every dependency
refers to `b`'s id (absent from the base): starting with `b` already queued,
the queue is unchanged. -/
theorem processDeps_deps_on_second_mem (base : Registry V) (a b : ApiFactory V)
    (fuel : Nat) (hab : a.api.id ≠ b.api.id)
    (ha : Registry.has base a.api.id = false)
    (hb : Registry.has base b.api.id = false)
    (hbdeps : ∀ d ∈ b.deps, Registry.has base d.2.id = true) :
    ∀ (l : List (String × ApiRef)), (∀ d ∈ l, d.2.id = b.api.id) →
    ∀ q, 1 ∈ q →
      processDeps base [a, b] (enqueueDepthFirst base [a, b] (fuel + 1)) l
        [a.api.id] q = .ok q := by
  intro l
  induction l with
  | nil => intro _ q _; rfl
  | cons p rest ih =>
    intro hl q hq
    obtain ⟨nm, dr⟩ := p
    have hdr : dr.id = b.api.id := hl (nm, dr) (List.mem_cons_self _ _)
    have hseen : dr.id ∉ [a.api.id] := by
      rw [hdr]
      simp [Ne.symm hab]
    have hhas : Registry.has base dr.id = false := by rw [hdr]; exact hb
    have hfp : findProducer dr.id [a, b] = some 1 := by
      rw [hdr]
      simp [findProducer, hab]
    have hne : dr.id ≠ a.api.id := by simpa using hseen
    have hsp : ∀ d ∈ b.deps, Registry.has base d.2.id = true ∧
        d.2.id ∉ ([a.api.id, dr.id] : List String) := by
      intro d hd
      have hdhas := hbdeps d hd
      refine ⟨hdhas, ?_⟩
      intro hmem
      rcases List.mem_cons.mp hmem with h1 | h2
      · rw [h1] at hdhas
        rw [hdhas] at ha
        cases ha
      · rw [List.mem_singleton.mp h2, hdr] at hdhas
        rw [hdhas] at hb
        cases hb
    have hstep := edf_on_second base a b fuel [a.api.id, dr.id] hsp q
    rw [if_pos hq] at hstep
    simp [processDeps, hne, hhas, hfp, hstep,
      ih (fun d hd => hl d (List.mem_cons_of_mem _ hd)) q hq]

/-- The deps loop of the first factory of `[a, b]`, when every dependency
refers to `b`'s id (absent from the base): starting from a queue not yet
holding `b`'s position and a nonempty list, `b` is appended once. -/
theorem processDeps_deps_on_second_new (base : Registry V) (a b : ApiFactory V)
    (fuel : Nat) (hab : a.api.id ≠ b.api.id)
    (ha : Registry.has base a.api.id = false)
    (hb : Registry.has base b.api.id = false)
    (hbdeps : ∀ d ∈ b.deps, Registry.has base d.2.id = true)
    (nm : String) (dr : ApiRef) (rest : List (String × ApiRef))
    (hl : ∀ d ∈ ((nm, dr) :: rest : List (String × ApiRef)), d.2.id = b.api.id)
    (q : List Nat) (hq : 1 ∉ q) :
    processDeps base [a, b] (enqueueDepthFirst base [a, b] (fuel + 1))
      ((nm, dr) :: rest) [a.api.id] q = .ok (q ++ [1]) := by
  have hdr : dr.id = b.api.id := hl (nm, dr) (List.mem_cons_self _ _)
  have hseen : dr.id ∉ [a.api.id] := by
    rw [hdr]
    simp [Ne.symm hab]
  have hhas : Registry.has base dr.id = false := by rw [hdr]; exact hb
  have hfp : findProducer dr.id [a, b] = some 1 := by
    rw [hdr]
    simp [findProducer, hab]
  have hne : dr.id ≠ a.api.id := by simpa using hseen
  have hsp : ∀ d ∈ b.deps, Registry.has base d.2.id = true ∧
      d.2.id ∉ ([a.api.id, dr.id] : List String) := by
    intro d hd
    have hdhas := hbdeps d hd
    refine ⟨hdhas, ?_⟩
    intro hmem
    rcases List.mem_cons.mp hmem with h1 | h2
    · rw [h1] at hdhas
      rw [hdhas] at ha
      cases ha
    · rw [List.mem_singleton.mp h2, hdr] at hdhas
      rw [hdhas] at hb
      cases hb
  have hstep := edf_on_second base a b fuel [a.api.id, dr.id] hsp q
  rw [if_neg hq] at hstep
  have hrest := processDeps_deps_on_second_mem base a b fuel hab ha hb hbdeps
    rest (fun d hd => hl d (List.mem_cons_of_mem _ hd)) (q ++ [1]) (by simp)
  simp [processDeps, hne, hhas, hfp, hstep, hrest]

/-- Registering a single factory whose dependencies are all already present:
`with` succeeds and appends exactly its entry. -/
theorem withF_single_all_base (base : Registry V) (b : ApiFactory V)
    (hb : Registry.has base b.api.id = false)
    (hdeps : ∀ d ∈ b.deps, Registry.has base d.2.id = true) :
    withF base [b] = .ok (Registry.set base b.api.id (applyFactory b base)) := by
  have hsp : ∀ d ∈ b.deps, Registry.has base d.2.id = true ∧
      d.2.id ∉ [b.api.id] := by
    intro d hd
    have hdhas := hdeps d hd
    refine ⟨hdhas, ?_⟩
    intro hmem
    rw [List.mem_singleton.mp hmem] at hdhas
    rw [hdhas] at hb
    cases hb
  rw [withF_eq]
  have h1 : ([b] : List (ApiFactory V)).length + 1 = 1 + 1 := rfl
  have h2 : List.range ([b] : List (ApiFactory V)).length = [0] := rfl
  rw [h1, h2]
  have hedf : enqueueDepthFirst base [b] (1 + 1) 0 [b.api.id] [] = .ok [0] := by
    rw [show (1 + 1 : Nat) = 1 + 1 from rfl, enqueueDepthFirst_succ]
    simp only [List.getElem?_cons_zero,
      processDeps_skips_present base [b] _ b.deps [b.api.id] hsp]
    simp
  simp [buildQueue, hb, hedf, instantiate, instStepReg]

/-- `with [a, b]` where `a` has no dependencies and all of `b`'s dependencies
are in the base: the queue is `[a, b]` in batch order. -/
theorem withF_pair_nil_deps (base : Registry V) (a b : ApiFactory V)
    (ha : Registry.has base a.api.id = false)
    (hb : Registry.has base b.api.id = false)
    (hbdeps : ∀ d ∈ b.deps, Registry.has base d.2.id = true)
    (hanil : a.deps = []) :
    withF base [a, b] =
      .ok (Registry.set (Registry.set base a.api.id (applyFactory a base))
        b.api.id
        (applyFactory b (Registry.set base a.api.id (applyFactory a base)))) := by
  rw [withF_eq]
  have h1 : ([a, b] : List (ApiFactory V)).length + 1 = 1 + 1 + 1 := rfl
  have h2 : List.range ([a, b] : List (ApiFactory V)).length = [0, 1] := rfl
  rw [h1, h2]
  have hedf0 : enqueueDepthFirst base [a, b] (1 + 1 + 1) 0 [a.api.id] [] =
      .ok [0] := by
    rw [enqueueDepthFirst_succ]
    simp only [List.getElem?_cons_zero]
    rw [hanil]
    simp [processDeps]
  have hsp : ∀ d ∈ b.deps, Registry.has base d.2.id = true ∧
      d.2.id ∉ [b.api.id] := by
    intro d hd
    have hdhas := hbdeps d hd
    refine ⟨hdhas, ?_⟩
    intro hmem
    rw [List.mem_singleton.mp hmem] at hdhas
    rw [hdhas] at hb
    cases hb
  have hedf1 : enqueueDepthFirst base [a, b] (1 + 1 + 1) 1 [b.api.id] [0] =
      .ok [0, 1] := by
    have := edf_on_second base a b (1 + 1) [b.api.id] hsp [0]
    rw [if_neg (by simp)] at this
    exact this
  simp [buildQueue, ha, hb, hedf0, hedf1, instantiate, instStepReg]

/-- `with [a, b]` where `a` depends (only) on `b` through a nonempty deps map
and all of `b`'s dependencies are in the base: the queue is `[b, a]`, the
dependency order. -/
theorem withF_pair_cons_deps (base : Registry V) (a b : ApiFactory V)
    (hab : a.api.id ≠ b.api.id)
    (ha : Registry.has base a.api.id = false)
    (hb : Registry.has base b.api.id = false)
    (hadeps : ∀ d ∈ a.deps, d.2.id = b.api.id)
    (hbdeps : ∀ d ∈ b.deps, Registry.has base d.2.id = true)
    (hne : a.deps ≠ []) :
    withF base [a, b] =
      .ok (Registry.set (Registry.set base b.api.id (applyFactory b base))
        a.api.id
        (applyFactory a (Registry.set base b.api.id (applyFactory b base)))) := by
  rw [withF_eq]
  have h1 : ([a, b] : List (ApiFactory V)).length + 1 = 1 + 1 + 1 := rfl
  have h2 : List.range ([a, b] : List (ApiFactory V)).length = [0, 1] := rfl
  rw [h1, h2]
  obtain ⟨⟨nm, dr⟩, rest, hsplit⟩ : ∃ p rest, a.deps = p :: rest := by
    cases hd : a.deps with
    | nil => exact absurd hd hne
    | cons p rest => exact ⟨p, rest, rfl⟩
  have hedf0 : enqueueDepthFirst base [a, b] (1 + 1 + 1) 0 [a.api.id] [] =
      .ok [1, 0] := by
    rw [enqueueDepthFirst_succ]
    simp only [List.getElem?_cons_zero]
    rw [hsplit]
    rw [processDeps_deps_on_second_new base a b 1 hab ha hb hbdeps nm dr rest
      (by rw [← hsplit]; exact hadeps) [] (by simp)]
    simp
  have hsp : ∀ d ∈ b.deps, Registry.has base d.2.id = true ∧
      d.2.id ∉ [b.api.id] := by
    intro d hd
    have hdhas := hbdeps d hd
    refine ⟨hdhas, ?_⟩
    intro hmem
    rw [List.mem_singleton.mp hmem] at hdhas
    rw [hdhas] at hb
    cases hb
  have hedf1 : enqueueDepthFirst base [a, b] (1 + 1 + 1) 1 [b.api.id] [1, 0] =
      .ok [1, 0] := by
    have := edf_on_second base a b (1 + 1) [b.api.id] hsp [1, 0]
    rw [if_pos (by simp)] at this
    exact this
  simp [buildQueue, ha, hb, hedf0, hedf1, instantiate, instStepReg]

/-- C8: growing the resolver incrementally (`with [b]` then `with [a]`, where
`a` depends only on `b`'s produced id and all of `b`'s dependencies are
already in the base) resolves both produced references to the same values as
registering both factories in the single batch `with [a, b]`. -/
theorem incremental_equals_batch (base : Registry V) (a b : ApiFactory V)
    (hab : a.api.id ≠ b.api.id)
    (ha : Registry.has base a.api.id = false)
    (hb : Registry.has base b.api.id = false)
    (hadeps : ∀ d ∈ a.deps, d.2.id = b.api.id)
    (hbdeps : ∀ d ∈ b.deps, Registry.has base d.2.id = true) :
    ∃ R1 R2 R3,
      withF base [b] = .ok R1 ∧
      withF R1 [a] = .ok R2 ∧
      withF base [a, b] = .ok R3 ∧
      Registry.get R2 a.api.id = Registry.get R3 a.api.id ∧
      Registry.get R2 b.api.id = Registry.get R3 b.api.id := by
  have hstep1 : withF base [b] =
      .ok (Registry.set base b.api.id (applyFactory b base)) :=
    withF_single_all_base base b hb hbdeps
  set R1 := Registry.set base b.api.id (applyFactory b base) with hR1
  have haR1 : Registry.has R1 a.api.id = false := by
    rw [hR1, Registry.has_set]
    simp [ha, hab]
  have hdepsR1 : ∀ d ∈ a.deps, Registry.has R1 d.2.id = true := by
    intro d hd
    rw [hadeps d hd, hR1, Registry.has_set]
    simp
  have hstep2 : withF R1 [a] =
      .ok (Registry.set R1 a.api.id (applyFactory a R1)) :=
    withF_single_all_base R1 a haR1 hdepsR1
  set R2 := Registry.set R1 a.api.id (applyFactory a R1) with hR2
  cases hcase : a.deps with
  | nil =>
    have hbatch := withF_pair_nil_deps base a b ha hb hbdeps hcase
    refine ⟨R1, R2, _, hstep1, hstep2, hbatch, ?_, ?_⟩
    · have hva : applyFactory a base = applyFactory a R1 := by
        unfold applyFactory
        rw [hcase]
        rfl
      rw [hR2]
      rw [Registry.get_set_self]
      rw [Registry.get_set_ne _ _ _ _ hab]
      rw [Registry.get_set_self, hva]
    · have hvb : applyFactory b
          (Registry.set base a.api.id (applyFactory a base)) =
          applyFactory b base := by
        unfold applyFactory
        refine congrArg b.factory ?_
        refine List.map_congr_left (fun d hd => ?_)
        have hdne : d.2.id ≠ a.api.id := by
          intro hcontra
          have hdhas := hbdeps d hd
          rw [hcontra] at hdhas
          rw [hdhas] at ha
          cases ha
        rw [Registry.get_set_ne _ _ _ _ hdne]
      rw [hR2]
      rw [Registry.get_set_ne _ _ _ _ (Ne.symm hab)]
      rw [hR1, Registry.get_set_self]
      rw [Registry.get_set_self, hvb]
  | cons p rest =>
    have hbatch := withF_pair_cons_deps base a b hab ha hb hadeps hbdeps
      (by rw [hcase]; simp)
    exact ⟨R1, R2, _, hstep1, hstep2, hbatch, rfl, rfl⟩

/-- Witness for C8 at the unit-test input: `b = 1` registered first, then
`a = b + 1`, matches the single batch `[a, b]` over the empty resolver. -/
theorem incremental_equals_batch_witness :
    ∃ R1 R2 R3,
      withF ([] : Registry Nat) [⟨⟨"b"⟩, [], fun _ => 1⟩] = .ok R1 ∧
      withF R1 [⟨⟨"a"⟩, [("bi", ⟨"b"⟩)], fun args =>
        match List.lookup "bi" args with
        | some (some v) => v + 1
        | _ => 0⟩] = .ok R2 ∧
      withF ([] : Registry Nat) [⟨⟨"a"⟩, [("bi", ⟨"b"⟩)], fun args =>
        match List.lookup "bi" args with
        | some (some v) => v + 1
        | _ => 0⟩, ⟨⟨"b"⟩, [], fun _ => 1⟩] = .ok R3 ∧
      Registry.get R2 "a" = Registry.get R3 "a" ∧
      Registry.get R2 "b" = Registry.get R3 "b" := by
  have h := incremental_equals_batch ([] : Registry Nat)
    ⟨⟨"a"⟩, [("bi", ⟨"b"⟩)], fun args =>
      match List.lookup "bi" args with
      | some (some v) => v + 1
      | _ => 0⟩
    ⟨⟨"b"⟩, [], fun _ => 1⟩
    (by decide) rfl rfl (by simp) (by simp)
  exact h

/-! ### Topological order and the canonical computation (C1) -/

/-- A batch listed in a dependency-respecting order, per the spec's canonical
computation: every factory's dependencies are either already in the base
registry or produced by an earlier factory of the list. -/
def TopoSorted (base : Registry V) (batch : List (ApiFactory V)) : Prop :=
  ∀ (k : Nat) (f : ApiFactory V), batch[k]? = some f → ∀ d ∈ f.deps,
    Registry.has base d.2.id = true ∨
    ∃ (k' : Nat) (g : ApiFactory V), k' < k ∧ batch[k']? = some g ∧
      g.api.id = d.2.id

/-- Modelled from the spec: the canonical dependency-respecting computation —
instantiate the factories of a topologically sorted batch in list order. -/
def canonicalInstantiate (base : Registry V) (batch : List (ApiFactory V)) :
    Registry V :=
  instantiate batch (List.range batch.length) base

/-- Executable check of `TopoSorted`, for discharging it on concrete
batches. -/
def topoOkB (base : Registry V) (batch : List (ApiFactory V)) : Bool :=
  (List.range batch.length).all fun k =>
    match batch[k]? with
    | none => true
    | some f => f.deps.all fun d =>
      Registry.has base d.2.id ||
      ((List.range k).any fun k' =>
        match batch[k']? with
        | none => false
        | some g => g.api.id == d.2.id)

theorem topoOkB_topoSorted {base : Registry V} {batch : List (ApiFactory V)}
    (h : topoOkB base batch = true) : TopoSorted base batch := by
  intro k f hk d hd
  have hklt : k < batch.length := by
    by_contra hge
    rw [List.getElem?_eq_none_iff.mpr (by omega)] at hk
    cases hk
  rw [topoOkB, List.all_eq_true] at h
  have hk' := h k (List.mem_range.mpr hklt)
  rw [hk] at hk'
  simp only [List.all_eq_true] at hk'
  have hd' := hk' d hd
  rw [Bool.or_eq_true] at hd'
  rcases hd' with h1 | h2
  · exact .inl h1
  · rw [List.any_eq_true] at h2
    obtain ⟨k', hk'mem, hk'2⟩ := h2
    cases hg : batch[k']? with
    | none => rw [hg] at hk'2; cases hk'2
    | some g =>
      rw [hg] at hk'2
      exact .inr ⟨k', g, List.mem_range.mp hk'mem, hg, by simpa using hk'2⟩

/-- A queue of batch positions that is itself a valid topological
instantiation order: no duplicate positions, every position valid, and each
member's dependencies either in the base or produced by an earlier queue
member. -/
def GoodQueue (base : Registry V) (batch : List (ApiFactory V))
    (q : List Nat) : Prop :=
  q.Nodup ∧
  ∀ (k i : Nat), q[k]? = some i → i < batch.length ∧
    ∀ (f : ApiFactory V), batch[i]? = some f → ∀ d ∈ f.deps,
      Registry.has base d.2.id = true ∨
      ∃ (k' i' : Nat) (g : ApiFactory V), k' < k ∧ q[k']? = some i' ∧
        batch[i']? = some g ∧ g.api.id = d.2.id

theorem findProducer_isSome_of_exists {batch : List (ApiFactory V)}
    {id : String} (h : ∃ g ∈ batch, g.api.id = id) :
    ∃ j, findProducer id batch = some j := by
  obtain ⟨g, hg, hgid⟩ := h
  induction batch with
  | nil => simp at hg
  | cons f rest ih =>
    by_cases hf : f.api.id = id
    · exact ⟨0, by simp [findProducer, hf]⟩
    · rcases List.mem_cons.mp hg with rfl | hg'
      · exact absurd hgid hf
      · obtain ⟨j, hj⟩ := ih hg'
        exact ⟨j + 1, by simp [findProducer, hf, hj]⟩

/-- The position of a factory in a batch with distinct produced ids, recovered
from its id. -/
def idxOfId (batch : List (ApiFactory V)) (s : String) : Nat :=
  match batch with
  | [] => 0
  | f :: rest => if f.api.id == s then 0 else idxOfId rest s + 1

theorem idxOfId_getElem {batch : List (ApiFactory V)}
    (hnodup : (batch.map (·.api.id)).Nodup) :
    ∀ {k : Nat} {f : ApiFactory V}, batch[k]? = some f →
      idxOfId batch f.api.id = k := by
  induction batch with
  | nil => intro k f hk; simp at hk
  | cons g rest ih =>
    intro k f hk
    rw [List.map_cons, List.nodup_cons] at hnodup
    cases k with
    | zero =>
      simp only [List.getElem?_cons_zero, Option.some.injEq] at hk
      subst hk
      simp [idxOfId]
    | succ k =>
      rw [List.getElem?_cons_succ] at hk
      have hfmem : f ∈ rest := by
        rw [List.mem_iff_getElem?]
        exact ⟨k, hk⟩
      have hne : g.api.id ≠ f.api.id := by
        intro hcontra
        exact hnodup.1 (hcontra ▸ List.mem_map_of_mem _ hfmem)
      simp only [idxOfId, beq_iff_eq, hne, if_false]
      rw [ih hnodup.2 hk]

section TopoSuccess

variable {base : Registry V} {batch : List (ApiFactory V)} (rank : String → Nat)

/-- Appending a position whose dependencies are all covered to a good queue
keeps it good. -/
theorem GoodQueue.append {q : List Nat} (good : GoodQueue base batch q)
    (i : Nat) (hi : i < batch.length) (hnot : i ∉ q)
    (hdeps : ∀ (f : ApiFactory V), batch[i]? = some f → ∀ d ∈ f.deps,
      Registry.has base d.2.id = true ∨
      ∃ (j : Nat) (g : ApiFactory V), j ∈ q ∧ batch[j]? = some g ∧
        g.api.id = d.2.id) :
    GoodQueue base batch (q ++ [i]) := by
  obtain ⟨hnd, hpos⟩ := good
  constructor
  · rw [List.nodup_append]
    exact ⟨hnd, List.nodup_singleton i,
      fun a ha hb => hnot (List.mem_singleton.mp hb ▸ ha)⟩
  · intro k x hk
    by_cases hklt : k < q.length
    · rw [List.getElem?_append, if_pos hklt] at hk
      obtain ⟨hxlt, hxdeps⟩ := hpos k x hk
      refine ⟨hxlt, fun f hf d hd => ?_⟩
      rcases hxdeps f hf d hd with h1 | ⟨k', i', g, hk'k, hq', hg, hgid⟩
      · exact .inl h1
      · exact .inr ⟨k', i', g, hk'k,
          by rw [List.getElem?_append, if_pos (by omega)]; exact hq', hg, hgid⟩
    · have hk2 : k = q.length := by
        by_contra hne
        rw [List.getElem?_eq_none_iff.mpr
          (by simp only [List.length_append, List.length_singleton]; omega)] at hk
        cases hk
      subst hk2
      have hx : x = i := by
        rw [List.getElem?_append, if_neg (by omega), Nat.sub_self] at hk
        simpa using hk.symm
      subst hx
      refine ⟨hi, fun f hf d hd => ?_⟩
      rcases hdeps f hf d hd with h1 | ⟨j, g, hjq, hg, hgid⟩
      · exact .inl h1
      · obtain ⟨k', hk'⟩ := List.mem_iff_getElem?.mp hjq
        have hk'lt : k' < q.length := by
          have := List.getElem?_eq_some.mp hk'
          exact this.1
        exact .inr ⟨k', j, g, hk'lt,
          by rw [List.getElem?_append, if_pos hk'lt]; exact hk', hg, hgid⟩

/-- The deps loop succeeds along a rank-decreasing traversal, extending the
queue to one that also covers every listed dependency. -/
theorem processDeps_topo_ok
    (recur : Nat → List String → List Nat → Except ResolverError (List Nat))
    (R : Nat)
    (hrec : ∀ (j : Nat) (id' : String), findProducer id' batch = some j →
      Registry.has base id' = false → rank id' < R →
      ∀ (seen' : List String) (q : List Nat),
        (∀ s ∈ seen', rank id' ≤ rank s ∧ Registry.has base s = false) →
        GoodQueue base batch q →
        ∃ q', recur j seen' q = .ok q' ∧ (∃ t, q' = q ++ t) ∧
          GoodQueue base batch q' ∧ j ∈ q')
    (l : List (String × ApiRef))
    (hl : ∀ d ∈ l,
      (Registry.has base d.2.id = true ∨ ∃ g ∈ batch, g.api.id = d.2.id) ∧
      (Registry.has base d.2.id = false → rank d.2.id < R))
    (seen : List String)
    (hseen : ∀ s ∈ seen, R ≤ rank s ∧ Registry.has base s = false) :
    ∀ q, GoodQueue base batch q →
      ∃ q', processDeps base batch recur l seen q = .ok q' ∧
        (∃ t, q' = q ++ t) ∧ GoodQueue base batch q' ∧
        (∀ d ∈ l, Registry.has base d.2.id = true ∨
          ∃ (j : Nat) (g : ApiFactory V), j ∈ q' ∧ batch[j]? = some g ∧
            g.api.id = d.2.id) := by
  induction l with
  | nil =>
    intro q good
    exact ⟨q, rfl, ⟨[], by simp⟩, good, by simp⟩
  | cons p rest ih =>
    intro q good
    obtain ⟨nm, dr⟩ := p
    have hdhead := hl (nm, dr) (List.mem_cons_self _ _)
    have hlrest := fun d hd => hl d (List.mem_cons_of_mem _ hd)
    by_cases hhas : Registry.has base dr.id = true
    · have hnotseen : dr.id ∉ seen := by
        intro hmem
        have := (hseen dr.id hmem).2
        rw [hhas] at this
        cases this
      obtain ⟨q', hq', hext, hgood, hcov⟩ := ih hlrest q good
      refine ⟨q', by simp [processDeps, hnotseen, hhas, hq'], hext, hgood,
        fun d hd => ?_⟩
      rcases List.mem_cons.mp hd with rfl | hd'
      · exact .inl hhas
      · exact hcov d hd'
    · have hhas' : Registry.has base dr.id = false := by simpa using hhas
      have hrk : rank dr.id < R := hdhead.2 hhas'
      have hnotseen : dr.id ∉ seen := by
        intro hmem
        have := (hseen dr.id hmem).1
        omega
      have hsat : ∃ g ∈ batch, g.api.id = dr.id := by
        rcases hdhead.1 with h1 | h2
        · rw [hhas'] at h1; cases h1
        · exact h2
      obtain ⟨j, hfp⟩ := findProducer_isSome_of_exists hsat
      have hseen' : ∀ s ∈ seen ++ [dr.id],
          rank dr.id ≤ rank s ∧ Registry.has base s = false := by
        intro s hs
        rcases List.mem_append.mp hs with hs1 | hs2
        · have := hseen s hs1
          exact ⟨by omega, this.2⟩
        · rw [List.mem_singleton.mp hs2]
          exact ⟨Nat.le_refl _, hhas'⟩
      obtain ⟨q2, hok2, hext2, good2, hjq2⟩ :=
        hrec j dr.id hfp hhas' hrk (seen ++ [dr.id]) q hseen' good
      obtain ⟨q', hq', hext', hgood', hcov'⟩ := ih hlrest q2 good2
      obtain ⟨g, hg, hgid⟩ := findProducer_eq_some hfp
      refine ⟨q',
        by simp [processDeps, hnotseen, hhas', hfp, hok2, hq'], ?_, hgood',
        fun d hd => ?_⟩
      · obtain ⟨t1, ht1⟩ := hext2
        obtain ⟨t2, ht2⟩ := hext'
        exact ⟨t1 ++ t2, by rw [ht2, ht1, List.append_assoc]⟩
      · rcases List.mem_cons.mp hd with rfl | hd'
        · refine .inr ⟨j, g, ?_, hg, hgid⟩
          obtain ⟨t2, ht2⟩ := hext'
          rw [ht2]
          exact List.mem_append_left _ hjq2
        · exact hcov' d hd'

/-- The depth-first placement succeeds on a satisfiable, rank-decreasing
batch, producing a good queue that contains the placed position. -/
theorem enqueueDepthFirst_topo_ok
    (Hsat : ∀ f ∈ batch, ∀ d ∈ f.deps,
      Registry.has base d.2.id = true ∨ ∃ g ∈ batch, g.api.id = d.2.id)
    (Hrk : ∀ f ∈ batch, ∀ d ∈ f.deps, Registry.has base d.2.id = false →
      rank d.2.id < rank f.api.id) :
    ∀ (fuel i : Nat) (seen : List String) (q : List Nat),
      i < batch.length →
      (∀ (f : ApiFactory V), batch[i]? = some f → rank f.api.id < fuel ∧
        ∀ s ∈ seen, rank f.api.id ≤ rank s ∧ Registry.has base s = false) →
      GoodQueue base batch q →
      ∃ q', enqueueDepthFirst base batch fuel i seen q = .ok q' ∧
        (∃ t, q' = q ++ t) ∧ GoodQueue base batch q' ∧ i ∈ q' := by
  intro fuel
  induction fuel with
  | zero =>
    intro i seen q hi hf good
    obtain ⟨f, hfi⟩ : ∃ f, batch[i]? = some f := by
      cases hfi : batch[i]? with
      | none =>
        rw [List.getElem?_eq_none_iff] at hfi
        omega
      | some f => exact ⟨f, rfl⟩
    have := (hf f hfi).1
    omega
  | succ fuel ih =>
    intro i seen q hi hf good
    obtain ⟨f, hfi⟩ : ∃ f, batch[i]? = some f := by
      cases hfi : batch[i]? with
      | none =>
        rw [List.getElem?_eq_none_iff] at hfi
        omega
      | some f => exact ⟨f, rfl⟩
    have hfmem : f ∈ batch := by
      rw [List.mem_iff_getElem?]
      exact ⟨i, hfi⟩
    have hrec : ∀ (j : Nat) (id' : String), findProducer id' batch = some j →
        Registry.has base id' = false → rank id' < rank f.api.id →
        ∀ (seen' : List String) (qq : List Nat),
          (∀ s ∈ seen', rank id' ≤ rank s ∧ Registry.has base s = false) →
          GoodQueue base batch qq →
          ∃ q', enqueueDepthFirst base batch fuel j seen' qq = .ok q' ∧
            (∃ t, q' = qq ++ t) ∧ GoodQueue base batch q' ∧ j ∈ q' := by
      intro j id' hfp hhas hrklt seen' qq hseen' good'
      obtain ⟨g, hgj, hgid⟩ := findProducer_eq_some hfp
      have hjlt : j < batch.length := by
        have := List.getElem?_eq_some.mp hgj
        exact this.1
      refine ih j seen' qq hjlt (fun f' hf' => ?_) good'
      rw [hgj] at hf'
      cases hf'
      rw [hgid]
      have hflt := (hf f hfi).1
      exact ⟨by omega, hseen'⟩
    have hl : ∀ d ∈ f.deps,
        (Registry.has base d.2.id = true ∨ ∃ g ∈ batch, g.api.id = d.2.id) ∧
        (Registry.has base d.2.id = false →
          rank d.2.id < rank f.api.id) := by
      intro d hd
      exact ⟨Hsat f hfmem d hd, fun hfalse => Hrk f hfmem d hd hfalse⟩
    obtain ⟨q1, hpd, hext1, good1, hcov1⟩ := processDeps_topo_ok rank
      (enqueueDepthFirst base batch fuel) (rank f.api.id) hrec f.deps hl seen
      (fun s hs => (hf f hfi).2 s hs) q good
    by_cases hiq : i ∈ q1
    · refine ⟨q1, ?_, hext1, good1, hiq⟩
      rw [enqueueDepthFirst_succ, hfi]
      simp [hpd, hiq]
    · refine ⟨q1 ++ [i], ?_, ?_, ?_, by simp⟩
      · rw [enqueueDepthFirst_succ, hfi]
        simp [hpd, hiq]
      · obtain ⟨t1, ht1⟩ := hext1
        exact ⟨t1 ++ [i], by rw [ht1, List.append_assoc]⟩
      · refine good1.append i hi hiq (fun f' hf' d hd => ?_)
        rw [hfi] at hf'
        cases hf'
        rcases hcov1 d hd with h1 | ⟨j, g, hj, hg, hgid⟩
        · exact .inl h1
        · exact .inr ⟨j, g, hj, hg, hgid⟩

/-- The check loop of `with` succeeds on a satisfiable, rank-decreasing
batch, and its queue covers every processed index. -/
theorem buildQueue_topo_ok
    (Hnb : ∀ f ∈ batch, Registry.has base f.api.id = false)
    (Hsat : ∀ f ∈ batch, ∀ d ∈ f.deps,
      Registry.has base d.2.id = true ∨ ∃ g ∈ batch, g.api.id = d.2.id)
    (Hrk : ∀ f ∈ batch, ∀ d ∈ f.deps, Registry.has base d.2.id = false →
      rank d.2.id < rank f.api.id)
    (Hrb : ∀ f ∈ batch, rank f.api.id < batch.length) :
    ∀ (idxs : List Nat) (q : List Nat),
      (∀ i ∈ idxs, i < batch.length) →
      GoodQueue base batch q →
      ∃ q', buildQueue base batch (batch.length + 1) idxs q = .ok q' ∧
        (∃ t, q' = q ++ t) ∧ GoodQueue base batch q' ∧ ∀ i ∈ idxs, i ∈ q' := by
  intro idxs
  induction idxs with
  | nil =>
    intro q _ good
    exact ⟨q, rfl, ⟨[], by simp⟩, good, by simp⟩
  | cons j rest ih =>
    intro q hlt good
    have hjlt : j < batch.length := hlt j (List.mem_cons_self _ _)
    obtain ⟨g, hgj⟩ : ∃ g, batch[j]? = some g := by
      cases hgj : batch[j]? with
      | none =>
        rw [List.getElem?_eq_none_iff] at hgj
        omega
      | some g => exact ⟨g, rfl⟩
    have hgmem : g ∈ batch := by
      rw [List.mem_iff_getElem?]
      exact ⟨j, hgj⟩
    have hgnb : Registry.has base g.api.id = false := Hnb g hgmem
    obtain ⟨q1, hedf, hext1, good1, hjq1⟩ := enqueueDepthFirst_topo_ok rank
      Hsat Hrk (batch.length + 1) j [g.api.id] q hjlt
      (fun f' hf' => by
        rw [hgj] at hf'
        cases hf'
        refine ⟨by have := Hrb g hgmem; omega, fun s hs => ?_⟩
        rw [List.mem_singleton.mp hs]
        exact ⟨Nat.le_refl _, hgnb⟩) good
    obtain ⟨q', hbq, hext', good', hall'⟩ := ih q1
      (fun i hi => hlt i (List.mem_cons_of_mem _ hi)) good1
    refine ⟨q', by simp [buildQueue, hgj, hgnb, hedf, hbq], ?_, good',
      fun i hi => ?_⟩
    · obtain ⟨t1, ht1⟩ := hext1
      obtain ⟨t2, ht2⟩ := hext'
      exact ⟨t1 ++ t2, by rw [ht2, ht1, List.append_assoc]⟩
    · rcases List.mem_cons.mp hi with rfl | hirest
      · obtain ⟨t2, ht2⟩ := hext'
        rw [ht2]
        exact List.mem_append_left _ hjq1
      · exact hall' i hirest

end TopoSuccess

/-- Instantiating a good queue (over a batch with distinct produced ids, none
of them already in the base) yields a registry satisfying the defining
equations: every queued factory's id maps to its construction function applied
to the dependency values of the final registry. -/
theorem instantiate_fixpoint {base : Registry V} {batch : List (ApiFactory V)}
    {q : List Nat}
    (hnodup : (batch.map (·.api.id)).Nodup)
    (good : GoodQueue base batch q)
    (hnb : ∀ i ∈ q, ∀ (f : ApiFactory V), batch[i]? = some f →
      Registry.has base f.api.id = false) :
    ∀ (pos i : Nat), q[pos]? = some i → ∀ (f : ApiFactory V),
      batch[i]? = some f →
      Registry.get (instantiate batch q base) f.api.id =
        some (applyFactory f (instantiate batch q base)) := by
  intro pos i hpos f hfi
  have idInj : ∀ (x y : Nat), ∀ (hx0 hy0 : ApiFactory V), batch[x]? = some hx0 →
      batch[y]? = some hy0 → hx0.api.id = hy0.api.id → x = y := by
    intro x y hx0 hy0 hhx hhy hid
    have h1 := idxOfId_getElem hnodup hhx
    have h2 := idxOfId_getElem hnodup hhy
    rw [hid, h2] at h1
    exact h1.symm
  obtain ⟨hposlt, hqpos⟩ := List.getElem?_eq_some.mp hpos
  have hsplit : q = q.take pos ++ i :: q.drop (pos + 1) := by
    conv_lhs => rw [← List.take_append_drop pos q]
    rw [List.drop_eq_getElem_cons hposlt, hqpos]
  have hq1len : (q.take pos).length = pos :=
    List.length_take_of_le (by omega)
  have hnd := good.1
  rw [hsplit, List.nodup_append] at hnd
  obtain ⟨hnd1, hnd2, hdisj⟩ := hnd
  rw [List.nodup_cons] at hnd2
  have hiq1 : i ∉ q.take pos := fun hc => hdisj hc (List.mem_cons_self _ _)
  have hiq2 : i ∉ q.drop (pos + 1) := hnd2.1
  have hdisj12 : ∀ x ∈ q.take pos, x ∉ q.drop (pos + 1) := by
    intro x hx hc
    exact hdisj hx (List.mem_cons_of_mem _ hc)
  have hsub1 : ∀ x ∈ q.take pos, x ∈ q := by
    intro x hx
    rw [hsplit]
    exact List.mem_append_left _ hx
  have hsub2 : ∀ x ∈ q.drop (pos + 1), x ∈ q := by
    intro x hx
    rw [hsplit]
    exact List.mem_append_right _ (List.mem_cons_of_mem _ hx)
  have hiq : i ∈ q := by
    rw [hsplit]
    exact List.mem_append_right _ (List.mem_cons_self _ _)
  have hR : instantiate batch q base =
      instantiate batch (i :: q.drop (pos + 1))
        (instantiate batch (q.take pos) base) := by
    conv_lhs => rw [hsplit]
    rw [instantiate_append]
  have hstep : instantiate batch (i :: q.drop (pos + 1))
      (instantiate batch (q.take pos) base) =
      instantiate batch (q.drop (pos + 1))
        (Registry.set (instantiate batch (q.take pos) base) f.api.id
          (applyFactory f (instantiate batch (q.take pos) base))) := by
    rw [instantiate_cons]
    unfold instStepReg
    rw [hfi]
  have hgetR : Registry.get (instantiate batch q base) f.api.id =
      some (applyFactory f (instantiate batch (q.take pos) base)) := by
    rw [hR, hstep]
    rw [get_instantiate_of_not_produced batch (q.drop (pos + 1)) _ f.api.id
      (fun x hx h hhx hcontra => hiq2 (idInj x i h f hhx hfi hcontra ▸ hx))]
    exact Registry.get_set_self _ _ _
  rw [hgetR]
  refine congrArg some ?_
  unfold applyFactory
  refine congrArg f.factory (List.map_congr_left fun d hd => ?_)
  have hget : Registry.get (instantiate batch (q.take pos) base) d.2.id =
      Registry.get (instantiate batch q base) d.2.id := by
    rcases (good.2 pos i hpos).2 f hfi d hd with hhas |
        ⟨k', i', g, hk'lt, hq', hg, hgid⟩
    · have hnp1 : ∀ x ∈ q.take pos, ∀ (h : ApiFactory V),
          batch[x]? = some h → h.api.id ≠ d.2.id := by
        intro x hx h hhx hcontra
        have := hnb x (hsub1 x hx) h hhx
        rw [hcontra, hhas] at this
        cases this
      have hnpq : ∀ x ∈ q, ∀ (h : ApiFactory V),
          batch[x]? = some h → h.api.id ≠ d.2.id := by
        intro x hx h hhx hcontra
        have := hnb x hx h hhx
        rw [hcontra, hhas] at this
        cases this
      rw [get_instantiate_of_not_produced batch _ _ _ hnp1,
        get_instantiate_of_not_produced batch _ _ _ hnpq]
    · have hi'q1 : i' ∈ q.take pos := by
        rw [List.mem_iff_getElem?]
        refine ⟨k', ?_⟩
        rw [List.getElem?_take, if_pos (by omega)]
        exact hq'
      rw [hR, hstep]
      rw [get_instantiate_of_not_produced batch (q.drop (pos + 1)) _ d.2.id
        (fun x hx h hhx hcontra => by
          have hxi' : x = i' := idInj x i' h g hhx hg (hcontra.trans hgid.symm)
          exact hdisj12 i' hi'q1 (hxi' ▸ hx))]
      rw [Registry.get_set_ne _ _ _ _ (fun hcontra => by
        have : i = i' := idInj i i' f g hfi hg (hcontra.symm.trans hgid.symm)
        exact hiq1 (this ▸ hi'q1))]
  rw [hget]

/-- Two registries both satisfying the fixpoint equations of a topologically
sorted batch over the same base agree on every produced id. -/
theorem fixpoint_unique {base : Registry V} {batchS : List (ApiFactory V)}
    (Htopo : TopoSorted base batchS)
    (Hnb : ∀ f ∈ batchS, Registry.has base f.api.id = false)
    (R S : Registry V)
    (hR1 : ∀ f ∈ batchS,
      Registry.get R f.api.id = some (applyFactory f R))
    (hR2 : ∀ k, (∀ f ∈ batchS, f.api.id ≠ k) →
      Registry.get R k = Registry.get base k)
    (hS1 : ∀ f ∈ batchS,
      Registry.get S f.api.id = some (applyFactory f S))
    (hS2 : ∀ k, (∀ f ∈ batchS, f.api.id ≠ k) →
      Registry.get S k = Registry.get base k) :
    ∀ f ∈ batchS, Registry.get R f.api.id = Registry.get S f.api.id := by
  suffices h : ∀ (k : Nat) (f : ApiFactory V), batchS[k]? = some f →
      Registry.get R f.api.id = Registry.get S f.api.id by
    intro f hf
    obtain ⟨k, hk⟩ := List.mem_iff_getElem?.mp hf
    exact h k f hk
  intro k
  induction k using Nat.strong_induction_on with
  | _ k ih =>
    intro f hk
    have hfmem : f ∈ batchS := by
      rw [List.mem_iff_getElem?]
      exact ⟨k, hk⟩
    rw [hR1 f hfmem, hS1 f hfmem]
    refine congrArg some ?_
    unfold applyFactory
    refine congrArg f.factory (List.map_congr_left fun d hd => ?_)
    have hget : Registry.get R d.2.id = Registry.get S d.2.id := by
      rcases Htopo k f hk d hd with hhas | ⟨k', g, hk'lt, hg, hgid⟩
      · have hnp : ∀ f' ∈ batchS, f'.api.id ≠ d.2.id := by
          intro f' hf' hcontra
          have := Hnb f' hf'
          rw [hcontra, hhas] at this
          cases this
        rw [hR2 _ hnp, hS2 _ hnp]
      · rw [← hgid]
        exact ih k' hk'lt g hg
    rw [hget]

/-- The general success-and-agreement result behind C1: for a topologically
sorted batch with distinct produced ids none of which is already registered,
`with` on any permutation of it succeeds, and every produced id resolves to
the same value as under the canonical in-order instantiation. -/
theorem withF_perm_canonical (base : Registry V)
    (batchS batchP : List (ApiFactory V))
    (hperm : batchP.Perm batchS)
    (hnodup : (batchS.map (·.api.id)).Nodup)
    (hnbS : ∀ f ∈ batchS, Registry.has base f.api.id = false)
    (htopo : TopoSorted base batchS) :
    ∃ R, withF base batchP = .ok R ∧
      ∀ f ∈ batchS, Registry.get R f.api.id =
        Registry.get (canonicalInstantiate base batchS) f.api.id := by
  have hmemPS : ∀ f : ApiFactory V, f ∈ batchP ↔ f ∈ batchS :=
    fun f => hperm.mem_iff
  have hnbP : ∀ f ∈ batchP, Registry.has base f.api.id = false :=
    fun f hf => hnbS f ((hmemPS f).mp hf)
  have hnodupP : (batchP.map (·.api.id)).Nodup :=
    ((hperm.map _).nodup_iff).mpr hnodup
  have hlen : batchP.length = batchS.length := hperm.length_eq
  have HsatP : ∀ f ∈ batchP, ∀ d ∈ f.deps,
      Registry.has base d.2.id = true ∨ ∃ g ∈ batchP, g.api.id = d.2.id := by
    intro f hf d hd
    obtain ⟨k, hk⟩ := List.mem_iff_getElem?.mp ((hmemPS f).mp hf)
    rcases htopo k f hk d hd with h1 | ⟨k', g, _, hg, hgid⟩
    · exact .inl h1
    · refine .inr ⟨g, ?_, hgid⟩
      rw [hmemPS g, List.mem_iff_getElem?]
      exact ⟨k', hg⟩
  have HrkP : ∀ f ∈ batchP, ∀ d ∈ f.deps,
      Registry.has base d.2.id = false →
      idxOfId batchS d.2.id < idxOfId batchS f.api.id := by
    intro f hf d hd hfalse
    obtain ⟨k, hk⟩ := List.mem_iff_getElem?.mp ((hmemPS f).mp hf)
    rcases htopo k f hk d hd with h1 | ⟨k', g, hlt, hg, hgid⟩
    · rw [hfalse] at h1; cases h1
    · rw [← hgid, idxOfId_getElem hnodup hg, idxOfId_getElem hnodup hk]
      exact hlt
  have HrbP : ∀ f ∈ batchP, idxOfId batchS f.api.id < batchP.length := by
    intro f hf
    obtain ⟨k, hk⟩ := List.mem_iff_getElem?.mp ((hmemPS f).mp hf)
    rw [idxOfId_getElem hnodup hk, hlen]
    exact (List.getElem?_eq_some.mp hk).1
  have goodEmpty : GoodQueue base batchP [] :=
    ⟨List.nodup_nil, fun k i h => by simp at h⟩
  obtain ⟨q, hbq, _, goodq, hallq⟩ := buildQueue_topo_ok (idxOfId batchS)
    hnbP HsatP HrkP HrbP
    (List.range batchP.length) [] (fun i hi => List.mem_range.mp hi) goodEmpty
  have hok : withF base batchP = .ok (instantiate batchP q base) := by
    rw [withF_eq, hbq]
  have hnbq : ∀ i ∈ q, ∀ (f : ApiFactory V), batchP[i]? = some f →
      Registry.has base f.api.id = false := by
    intro i hi f hf
    refine hnbP f ?_
    rw [List.mem_iff_getElem?]
    exact ⟨i, hf⟩
  have hR1 : ∀ f ∈ batchS,
      Registry.get (instantiate batchP q base) f.api.id =
        some (applyFactory f (instantiate batchP q base)) := by
    intro f hf
    obtain ⟨i, hi⟩ := List.mem_iff_getElem?.mp ((hmemPS f).mpr hf)
    have hiq : i ∈ q := hallq i
      (List.mem_range.mpr (List.getElem?_eq_some.mp hi).1)
    obtain ⟨pos, hpos⟩ := List.mem_iff_getElem?.mp hiq
    exact instantiate_fixpoint hnodupP goodq hnbq pos i hpos f hi
  have hR2 : ∀ k, (∀ f ∈ batchS, f.api.id ≠ k) →
      Registry.get (instantiate batchP q base) k = Registry.get base k := by
    intro k hk
    refine get_instantiate_of_not_produced batchP q base k
      (fun i hi f hf => ?_)
    refine hk f ?_
    rw [← hmemPS f, List.mem_iff_getElem?]
    exact ⟨i, hf⟩
  have goodS : GoodQueue base batchS (List.range batchS.length) := by
    refine ⟨List.nodup_range _, fun k i hk => ?_⟩
    obtain ⟨hklt, hki⟩ := List.getElem?_eq_some.mp hk
    rw [List.length_range] at hklt
    rw [List.getElem_range] at hki
    subst hki
    refine ⟨hklt, fun f hf d hd => ?_⟩
    rcases htopo k f hf d hd with h1 | ⟨k', g, hlt, hg, hgid⟩
    · exact .inl h1
    · have hk'lt : k' < batchS.length := (List.getElem?_eq_some.mp hg).1
      exact .inr ⟨k', k', g, hlt, List.getElem?_range hk'lt, hg, hgid⟩
  have hnbqS : ∀ i ∈ List.range batchS.length, ∀ (f : ApiFactory V),
      batchS[i]? = some f → Registry.has base f.api.id = false := by
    intro i _ f hf
    refine hnbS f ?_
    rw [List.mem_iff_getElem?]
    exact ⟨i, hf⟩
  have hS1 : ∀ f ∈ batchS,
      Registry.get (canonicalInstantiate base batchS) f.api.id =
        some (applyFactory f (canonicalInstantiate base batchS)) := by
    intro f hf
    obtain ⟨k, hk⟩ := List.mem_iff_getElem?.mp hf
    have hklt : k < batchS.length := (List.getElem?_eq_some.mp hk).1
    exact instantiate_fixpoint hnodup goodS hnbqS k k
      (List.getElem?_range hklt) f hk
  have hS2 : ∀ k, (∀ f ∈ batchS, f.api.id ≠ k) →
      Registry.get (canonicalInstantiate base batchS) k =
        Registry.get base k := by
    intro k hk
    refine get_instantiate_of_not_produced batchS _ base k
      (fun i hi f hf => ?_)
    refine hk f ?_
    rw [List.mem_iff_getElem?]
    exact ⟨i, hf⟩
  refine ⟨instantiate batchP q base, hok, ?_⟩
  exact fixpoint_unique htopo hnbS _ _ hR1 hR2 hS1 hS2

/-! ### The permutation unit-test batch -/

/-- Dependency-value lookup used by the test construction functions. -/
def depValue (args : List (String × Option Nat)) (nm : String) : Nat :=
  match List.lookup nm args with
  | some (some v) => v
  | _ => 0

/-- Test factory `a = 1`. -/
def facA : ApiFactory Nat := ⟨⟨"a"⟩, [], fun _ => 1⟩

/-- Test factory `b = a + 1`. -/
def facB : ApiFactory Nat :=
  ⟨⟨"b"⟩, [("ai", ⟨"a"⟩)], fun args => depValue args "ai" + 1⟩

/-- Test factory `c = b + 1`. -/
def facC : ApiFactory Nat :=
  ⟨⟨"c"⟩, [("bi", ⟨"b"⟩)], fun args => depValue args "bi" + 1⟩

/-- Test factory `d = b + 1`. -/
def facD : ApiFactory Nat :=
  ⟨⟨"d"⟩, [("bi", ⟨"b"⟩)], fun args => depValue args "bi" + 1⟩

/-- Test factory `e = c + d`. -/
def facE : ApiFactory Nat :=
  ⟨⟨"e"⟩, [("ci", ⟨"c"⟩), ("di", ⟨"d"⟩)],
    fun args => depValue args "ci" + depValue args "di"⟩

/-- The test batch, listed in dependency order. -/
def demoBatch : List (ApiFactory Nat) := [facA, facB, facC, facD, facE]

/-- C1: for every acyclic, fully-satisfiable batch — presented as a
topologically sorted reference list `batchS` with distinct produced ids absent
from the base — and for every permutation `batchP` of it, `with` succeeds and
every produced reference resolves to the same value as under the canonical
dependency-respecting computation; in particular, for the factories a=1,
b=a+1, c=b+1, d=b+1, e=c+d, every permutation resolves `e` to 6. -/
theorem with_any_permutation_canonical (base : Registry V)
    (batchS batchP : List (ApiFactory V))
    (hperm : batchP.Perm batchS)
    (hnodup : (batchS.map (·.api.id)).Nodup)
    (hnbS : ∀ f ∈ batchS, Registry.has base f.api.id = false)
    (htopo : TopoSorted base batchS) :
    (∃ R, withF base batchP = .ok R ∧
      ∀ f ∈ batchS, Registry.get R f.api.id =
        Registry.get (canonicalInstantiate base batchS) f.api.id) ∧
    (∀ p, p.Perm demoBatch →
      ∃ R, withF ([] : Registry Nat) p = .ok R ∧
        Registry.get R "e" = some 6) := by
  refine ⟨withF_perm_canonical base batchS batchP hperm hnodup hnbS htopo,
    fun p hp => ?_⟩
  obtain ⟨R, hok, hvals⟩ := withF_perm_canonical ([] : Registry Nat) demoBatch
    p hp (by decide) (fun f _ => rfl) (topoOkB_topoSorted (by decide))
  refine ⟨R, hok, ?_⟩
  have he := hvals facE (by simp [demoBatch])
  show Registry.get R facE.api.id = some 6
  rw [he]
  rfl

/-- Witness for C1: the identity permutation of the test batch over the empty
resolver resolves `e` to 6. -/
theorem with_any_permutation_canonical_witness :
    ∃ R, withF ([] : Registry Nat) demoBatch = .ok R ∧
      Registry.get R "e" = some 6 := by
  have h := with_any_permutation_canonical ([] : Registry Nat) demoBatch
    demoBatch (List.Perm.refl _) (by decide) (fun f _ => rfl)
    (topoOkB_topoSorted (by decide))
  exact h.2 demoBatch (List.Perm.refl _)

end Backstage
